import Mathlib

/-!
# Verification of the wisp.place CLI manifest synchronization and sharding engine

Shallow embedding of the Rust sources under `cli/src/` (`cid.rs`, `blob_map.rs`,
`main.rs`, `subfs_utils.rs`, `pull.rs`, `metadata.rs`) into Lean, together with
theorems settling the specification claims about them.

Modelling conventions:
* Rust `String`s that hold paths or identifiers are modelled as `List Char`
  (`Name`); byte buffers as `List Nat`.
* External crates (`flate2` gzip, `base64`, `sha2`, network transport) are
  modelled as function parameters: the engine's behaviour is proved for every
  choice of those functions.  Everything that is repository code is translated
  concretely.
* `std::collections::HashMap` is modelled as an association list with
  insert-overwrite semantics; all statements about maps go through lookup
  (`bmFind`), which matches `HashMap` observable behaviour (unique keys).
* The local filesystem is modelled as an association list from paths
  (component lists) to file contents; directories exist implicitly.
-/

namespace Wisp

/-- Path/identifier strings, modelled as character lists. -/
abbrev Name := List Char

/-- Byte sequences. -/
abbrev Bytes := List Nat

/-- `at://` blob reference as carried in a `FileNode`
(`jacquard_common::types::blob::BlobRef`): the engine only ever reads the
CID link `blob().r#ref` (as a string), so we model that field. -/
structure BlobRef where
  ref : Name
  deriving DecidableEq, Repr

/-- `place.wisp.fs` tree node (`place_wisp::fs::EntryNode`).  A `Directory`'s
entry list is inlined as `List (Name × FsNode)` (entry name × node); the
constant `r#type` discriminator strings of the Rust structs are represented by
the constructors themselves. -/
inductive FsNode where
  /-- `fs::File { blob, encoding, mimeType, base64 }` -/
  | file (blob : BlobRef) (encoding : Option Name) (mimeType : Option Name)
      (base64 : Option Bool)
  /-- `fs::Directory { entries }` -/
  | directory (entries : List (Name × FsNode))
  /-- `fs::Subfs { subject, flat }` — a shard reference -/
  | subfs (subject : Name) (flat : Option Bool)
  /-- forward-compatibility placeholder (opaque payload) -/
  | unknown (tag : Nat)

/-- Entries of a `place.wisp.fs` directory. -/
abbrev FsDir := List (Name × FsNode)

/-- `place.wisp.subfs` tree node (`place_wisp::subfs::EntryNode`).  Same shape
as `FsNode` except that a subfs-side shard reference carries no `flat` flag
(cf. the comment in `main.rs::convert_fs_dir_to_subfs_dir`). -/
inductive SubNode where
  | file (blob : BlobRef) (encoding : Option Name) (mimeType : Option Name)
      (base64 : Option Bool)
  | directory (entries : List (Name × SubNode))
  | subfs (subject : Name)
  | unknown (tag : Nat)

/-- Entries of a `place.wisp.subfs` directory. -/
abbrev SubDir := List (Name × SubNode)

/-! ## Path helpers

`main.rs`, `blob_map.rs`, `pull.rs` and `subfs_utils.rs` all build child paths
with `if current_path.is_empty() { name } else { format!("{}/{}", cur, name) }`.
-/

/-- `format!("{}/{}", cur, name)` guarded by `cur.is_empty()`. -/
def joinPath (cur name : Name) : Name :=
  if cur = [] then name else cur ++ '/' :: name

/-- Helper for `normalize_path`: everything after the first `'/'`, if any. -/
def afterFirstSlash : Name → Option Name
  | [] => none
  | c :: rest => if c = '/' then some rest else afterFirstSlash rest

/-- `blob_map.rs::normalize_path`: remove the base-folder prefix, i.e. if the
path contains a `'/'`, keep only what follows the first one. -/
def normalizePath (p : Name) : Name :=
  match afterFirstSlash p with
  | some rest => rest
  | none => p

/-- `target_path.split('/')` (Rust `str::split` on a single char: never
returns an empty list; splitting the empty string yields `[""]`). -/
def splitOnSlash : Name → List Name
  | [] => [[]]
  | c :: rest =>
    if c = '/' then [] :: splitOnSlash rest
    else
      match splitOnSlash rest with
      | [] => [[c]]          -- unreachable: splitOnSlash never returns []
      | p :: ps => (c :: p) :: ps

theorem splitOnSlash_ne_nil (p : Name) : splitOnSlash p ≠ [] := by
  induction p with
  | nil => simp [splitOnSlash]
  | cons c rest ih =>
    simp only [splitOnSlash]
    split
    · simp
    · cases h : splitOnSlash rest with
      | nil => simp
      | cons p ps => simp

/-! ## Blob maps (`blob_map.rs`)

`HashMap<String, (BlobRef, String)>` modelled as an association list with
insert-overwrite; `bmFind` is the observable lookup. -/

/-- `path → (blobRef, contentId)` map. -/
abbrev BlobMap := List (Name × (BlobRef × Name))

/-- Lookup (`HashMap::get`). -/
def bmFind : BlobMap → Name → Option (BlobRef × Name)
  | [], _ => none
  | (k, v) :: rest, key => if key = k then some v else bmFind rest key

/-- `HashMap::insert`: overwrite any previous binding of the key. -/
def bmInsert (k : Name) (v : BlobRef × Name) (m : BlobMap) : BlobMap :=
  (k, v) :: m.filter (fun e => !decide (e.1 = k))

/-- `HashMap::extend`: insert every binding of `sub` into `m`. -/
def bmExtend (m sub : BlobMap) : BlobMap :=
  sub.foldl (fun acc e => bmInsert e.1 e.2 acc) m

theorem bmFind_filter_ne (m : BlobMap) (k key : Name) (h : key ≠ k) :
    bmFind (m.filter (fun e => !decide (e.1 = k))) key = bmFind m key := by
  induction m with
  | nil => rfl
  | cons e rest ih =>
    by_cases he : e.1 = k
    · rw [List.filter_cons_of_neg (by simp [he])]
      rw [ih]
      cases e with
      | mk k1 v1 =>
        simp only at he
        subst he
        simp [bmFind, h]
    · rw [List.filter_cons_of_pos (by simp [he])]
      cases e with
      | mk k1 v1 =>
        by_cases hk : key = k1
        · simp [bmFind, hk]
        · simp [bmFind, hk, ih]

theorem bmFind_insert (k : Name) (v : BlobRef × Name) (m : BlobMap) (key : Name) :
    bmFind (bmInsert k v m) key = if key = k then some v else bmFind m key := by
  unfold bmInsert
  by_cases h : key = k
  · simp [bmFind, h]
  · simp only [bmFind, if_neg h]
    exact bmFind_filter_ne m k key h

/-! ## Content identifiers (`cid.rs`)

`compute_cid` hashes the canonical bytes with SHA-256 (external `sha2` crate,
modelled as a function parameter), wraps the digest in a multihash with code
`0x12`, builds a CIDv1 with the raw codec `0x55`, and renders it in multibase
lowercase base-32 (multibase prefix `'b'`, RFC 4648 alphabet, no padding).
The wrapping and rendering are repository-relevant behaviour and are modelled
concretely. -/

/-- Most-significant-bit-first bits of one byte. -/
def byteBits (b : Nat) : List Bool :=
  [b.testBit 7, b.testBit 6, b.testBit 5, b.testBit 4,
   b.testBit 3, b.testBit 2, b.testBit 1, b.testBit 0]

/-- Bits of a byte sequence. -/
def bytesBits (bs : Bytes) : List Bool :=
  bs.flatMap byteBits

/-- RFC 4648 base-32 alphabet, lowercase. -/
def base32Alphabet : List Char := "abcdefghijklmnopqrstuvwxyz234567".toList

/-- Value of up to five bits, most significant first. -/
def bitsVal (l : List Bool) : Nat :=
  l.foldl (fun acc b => 2 * acc + (if b then 1 else 0)) 0

/-- Base-32 encoding of a bit string, five bits per character, the final
partial group padded with zero bits, no `'='` padding characters
(as produced by `Cid::to_string_of_base(Base32Lower)`). -/
def base32Chars : List Bool → List Char
  | [] => []
  | b1 :: b2 :: b3 :: b4 :: b5 :: rest =>
    base32Alphabet.getD (bitsVal [b1, b2, b3, b4, b5]) 'a' :: base32Chars rest
  | partial_ =>
    [base32Alphabet.getD (bitsVal (partial_ ++ List.replicate (5 - partial_.length) false)) 'a']

/-- `cid.rs::compute_cid`, with the SHA-256 digest function abstracted:
multihash = code `0x12`, digest length, digest bytes (all lengths involved
fit in single-byte varints); CIDv1 = version `0x01`, codec `0x55` (raw),
multihash; rendered as `'b'` followed by base-32. -/
def computeCid (sha256 : Bytes → Bytes) (content : Bytes) : Name :=
  let hash := sha256 content
  let multihash : Bytes := 0x12 :: hash.length :: hash
  let cidBytes : Bytes := 0x01 :: 0x55 :: multihash
  'b' :: base32Chars (bytesBits cidBytes)

/-! ## Blob-map extraction (`blob_map.rs`)

`extract_blob_map_recursive` walks the tree accumulating a `HashMap`; every
`File` leaf is inserted under its normalized path and (when different) also
under its full path; directory sub-maps are merged with `extend`.

The Rust `match` in `blob_map.rs` spells out the `File`, `Directory` and
`Unknown` arms; a `Subfs` entry contributes nothing to the map (shard
references are expanded by the caller before extraction when their contents
must be reflected). -/

/-- `blob_map.rs::extract_blob_map_recursive`, in accumulator form: the Rust
loop `for entry in &directory.entries { … }` mutating `blob_map`. -/
def extractGo (cur : Name) (acc : BlobMap) : FsDir → BlobMap
  | [] => acc
  | (n, node) :: rest =>
    let fullPath := joinPath cur n
    let acc' :=
      match node with
      | .file blob _ _ _ =>
        let cidString := blob.ref
        let normalized := normalizePath fullPath
        let a1 := bmInsert normalized (blob, cidString) acc
        if normalized = fullPath then a1 else bmInsert fullPath (blob, cidString) a1
      | .directory sub => bmExtend acc (extractGo fullPath [] sub)
      | .subfs _ _ => acc
      | .unknown _ => acc
    extractGo cur acc' rest
termination_by entries => sizeOf entries
decreasing_by
  all_goals simp_wf <;> omega

/-- `blob_map.rs::extract_blob_map`. -/
def extractBlobMap (d : FsDir) : BlobMap :=
  extractGo [] [] d

theorem base32Chars_prefix_fixed (t : List Bool) :
    base32Chars ([false,false,false,false,false,false,false,true,
                  false,true,false,true,false,true,false,true,
                  false,false,false,true,false,false,true,false,
                  false,false,true,false,false,false,false,false] ++ t) =
      "afkrei".toList ++ base32Chars (false :: false :: t) := by
  simp [base32Chars, bitsVal, base32Alphabet]

theorem computeCid_prefix (sha : Bytes → Bytes) (c : Bytes) (hlen : (sha c).length = 32) :
    "bafkrei".toList <+: computeCid sha c := by
  show "bafkrei".toList <+:
    'b' :: base32Chars (bytesBits (0x01 :: 0x55 :: 0x12 :: (sha c).length :: sha c))
  rw [hlen]
  have hb : bytesBits (0x01 :: 0x55 :: 0x12 :: 32 :: sha c) =
      [false,false,false,false,false,false,false,true,
       false,true,false,true,false,true,false,true,
       false,false,false,true,false,false,true,false,
       false,false,true,false,false,false,false,false] ++ bytesBits (sha c) := by
    simp [bytesBits, byteBits]
    decide
  rw [hb, base32Chars_prefix_fixed]
  exact ⟨base32Chars (false :: false :: bytesBits (sha c)), rfl⟩

/-- **C7.** `compute_cid` is a pure function of its input byte sequence: two
calls on identical bytes yield identical strings, and (for any digest
function producing 32-byte digests, as SHA-256 does) the output always begins
with the fixed scheme prefix `"bafkrei"` — multibase `'b'` followed by the
base-32 rendering of CIDv1/raw-codec/SHA-256 header bytes — in lowercase
base-32. -/
theorem compute_cid_pure_and_prefixed (sha256 : Bytes → Bytes)
    (content content2 : Bytes) (hlen : (sha256 content).length = 32) :
    (content = content2 → computeCid sha256 content = computeCid sha256 content2) ∧
    "bafkrei".toList <+: computeCid sha256 content :=
  ⟨fun h => by rw [h], computeCid_prefix sha256 content hlen⟩

/-- Witness for C7 at a concrete digest function and concrete input. -/
theorem compute_cid_pure_and_prefixed_witness :
    ((fun _ : Bytes => List.replicate 32 0) []).length = 32 ∧
    ((([] : Bytes) = [1]) →
      computeCid (fun _ => List.replicate 32 0) [] =
        computeCid (fun _ => List.replicate 32 0) [1]) ∧
    "bafkrei".toList <+: computeCid (fun _ => List.replicate 32 0) [] :=
  ⟨by decide, compute_cid_pure_and_prefixed (fun _ => List.replicate 32 0) [] [1] (by decide)⟩

/-! ### Lemmas about `extractGo` -/

/-- The full-path/blob pairs of the `File` leaves of a tree, in traversal
order (the reference set for blob-map extraction). -/
def filePathBlobs (cur : Name) : FsDir → List (Name × BlobRef)
  | [] => []
  | (n, node) :: rest =>
    (match node with
     | .file blob _ _ _ => [(joinPath cur n, blob)]
     | .directory sub => filePathBlobs (joinPath cur n) sub
     | .subfs _ _ => []
     | .unknown _ => []) ++ filePathBlobs cur rest
termination_by entries => sizeOf entries
decreasing_by
  all_goals simp_wf <;> omega

theorem bmExtend_find (s : BlobMap) (m : BlobMap) (k : Name) :
    bmFind (bmExtend m s) k = (bmFind (bmExtend [] s) k).or (bmFind m k) := by
  induction s generalizing m with
  | nil => simp [bmExtend, bmFind]
  | cons e s ih =>
    show bmFind (bmExtend (bmInsert e.1 e.2 m) s) k =
      (bmFind (bmExtend (bmInsert e.1 e.2 []) s) k).or (bmFind m k)
    rw [ih (bmInsert e.1 e.2 m), ih (bmInsert e.1 e.2 [])]
    rw [bmFind_insert, bmFind_insert]
    cases h : bmFind (bmExtend [] s) k with
    | some v => simp
    | none =>
      by_cases hk : k = e.1 <;> simp [hk, bmFind]

/-- Keys of a blob map are pairwise distinct. -/
def bmNodup (m : BlobMap) : Prop := (m.map Prod.fst).Nodup

theorem bmNodup_insert (k : Name) (v : BlobRef × Name) (m : BlobMap)
    (h : bmNodup m) : bmNodup (bmInsert k v m) := by
  unfold bmNodup bmInsert
  simp only [List.map_cons, List.nodup_cons]
  constructor
  · intro hmem
    obtain ⟨e, he, hk⟩ := List.mem_map.mp hmem
    have := List.of_mem_filter he
    simp [hk] at this
  · exact h.sublist ((List.filter_sublist m).map Prod.fst)

theorem bmNodup_extend (m s : BlobMap) (h : bmNodup m) : bmNodup (bmExtend m s) := by
  induction s generalizing m with
  | nil => exact h
  | cons e s ih => exact ih _ (bmNodup_insert e.1 e.2 m h)

theorem bmFind_eq_none (s : BlobMap) (k : Name) (h : k ∉ s.map Prod.fst) :
    bmFind s k = none := by
  induction s with
  | nil => rfl
  | cons e s ih =>
    obtain ⟨k1, v1⟩ := e
    simp only [List.map_cons, List.mem_cons, not_or] at h
    simp [bmFind, h.1, ih h.2]

theorem bmFind_extend_nil (s : BlobMap) (h : bmNodup s) (k : Name) :
    bmFind (bmExtend [] s) k = bmFind s k := by
  induction s with
  | nil => rfl
  | cons e s ih =>
    obtain ⟨k1, v1⟩ := e
    have h' : bmNodup ((k1, v1) :: s) := h
    unfold bmNodup at h'
    simp only [List.map_cons, List.nodup_cons] at h'
    have hstep : bmExtend [] ((k1, v1) :: s) = bmExtend (bmInsert k1 v1 []) s := rfl
    rw [hstep, bmExtend_find, ih h'.2]
    by_cases hke : k = k1
    · subst hke
      rw [bmFind_eq_none s k h'.1]
      simp [bmFind, bmInsert]
    · simp [bmFind, bmInsert, hke]

/-- Accumulator decomposition: looking a key up in `extractGo cur acc d` first
consults the bindings contributed by `d` (which were inserted later and hence
shadow `acc`), then falls back to `acc`. -/
theorem extractGo_find (cur : Name) (acc : BlobMap) (d : FsDir) (k : Name) :
    bmFind (extractGo cur acc d) k = (bmFind (extractGo cur [] d) k).or (bmFind acc k) := by
  induction d generalizing acc with
  | nil => simp [extractGo, bmFind]
  | cons e rest ih =>
    obtain ⟨n, node⟩ := e
    cases node with
    | file blob enc mt b64 =>
      simp only [extractGo]
      by_cases hnf : normalizePath (joinPath cur n) = joinPath cur n
      · simp only [if_pos hnf]
        rw [ih, ih (bmInsert (normalizePath (joinPath cur n)) (blob, blob.ref) [])]
        rw [Option.or_assoc]
        congr 1
        rw [bmFind_insert, bmFind_insert]
        by_cases hk : k = normalizePath (joinPath cur n) <;> simp [hk, bmFind]
      · simp only [if_neg hnf]
        rw [ih, ih (bmInsert (joinPath cur n) (blob, blob.ref)
          (bmInsert (normalizePath (joinPath cur n)) (blob, blob.ref) []))]
        rw [Option.or_assoc]
        congr 1
        rw [bmFind_insert, bmFind_insert, bmFind_insert, bmFind_insert]
        by_cases hk1 : k = joinPath cur n
        · simp [hk1]
        · by_cases hk2 : k = normalizePath (joinPath cur n) <;> simp [hk1, hk2, bmFind]
    | directory sub =>
      simp only [extractGo]
      rw [ih, ih (bmExtend [] (extractGo (joinPath cur n) [] sub))]
      rw [Option.or_assoc]
      congr 1
      rw [bmExtend_find]
    | subfs subject flat =>
      simp only [extractGo]
      rw [ih]
    | unknown tag =>
      simp only [extractGo]
      rw [ih]

theorem extractGo_nodup (d : FsDir) (cur : Name) (acc : BlobMap) (h : bmNodup acc) :
    bmNodup (extractGo cur acc d) := by
  induction d generalizing acc with
  | nil => simpa [extractGo] using h
  | cons e rest ih =>
    obtain ⟨n, node⟩ := e
    cases node with
    | file blob enc mt b64 =>
      simp only [extractGo]
      split
      · exact ih _ (bmNodup_insert _ _ _ h)
      · exact ih _ (bmNodup_insert _ _ _ (bmNodup_insert _ _ _ h))
    | directory sub =>
      simp only [extractGo]
      exact ih _ (bmNodup_extend _ _ h)
    | subfs subject flat => simpa only [extractGo] using ih _ h
    | unknown tag => simpa only [extractGo] using ih _ h

/-- Soundness of blob-map extraction: every binding of the extracted map comes
from a `File` leaf, is keyed by that leaf's full path or its normalization,
and carries the leaf's blob reference and the content id read off that
reference. -/
theorem extract_sound : ∀ (d : FsDir) (cur k : Name) (b : BlobRef) (c : Name),
    bmFind (extractGo cur [] d) k = some (b, c) →
    ∃ p, (p, b) ∈ filePathBlobs cur d ∧ c = b.ref ∧ (k = p ∨ k = normalizePath p)
  | [], cur, k, b, c, h => by simp [extractGo, bmFind] at h
  | (n, .file blob enc mt b64) :: rest, cur, k, b, c, h => by
    · simp only [extractGo] at h
      rw [extractGo_find] at h
      cases hr : bmFind (extractGo cur [] rest) k with
      | some v =>
        rw [hr] at h
        simp only [Option.or_some, Option.some.injEq] at h
        subst h
        obtain ⟨p, hp, hc, hk⟩ := extract_sound rest cur k b c hr
        exact ⟨p, by simp only [filePathBlobs]; exact List.mem_append_right _ hp, hc, hk⟩
      | none =>
        rw [hr, Option.none_or] at h
        by_cases hnf : normalizePath (joinPath cur n) = joinPath cur n
        · rw [if_pos hnf, bmFind_insert] at h
          split at h
          · rename_i hk
            simp only [Option.some.injEq, Prod.mk.injEq] at h
            obtain ⟨hb, hc⟩ := h
            subst hb
            exact ⟨joinPath cur n, by simp [filePathBlobs], hc.symm, Or.inr hk⟩
          · simp [bmFind] at h
        · rw [if_neg hnf, bmFind_insert] at h
          split at h
          · rename_i hk
            simp only [Option.some.injEq, Prod.mk.injEq] at h
            obtain ⟨hb, hc⟩ := h
            subst hb
            exact ⟨joinPath cur n, by simp [filePathBlobs], hc.symm, Or.inl hk⟩
          · rw [bmFind_insert] at h
            split at h
            · rename_i hk
              simp only [Option.some.injEq, Prod.mk.injEq] at h
              obtain ⟨hb, hc⟩ := h
              subst hb
              exact ⟨joinPath cur n, by simp [filePathBlobs], hc.symm, Or.inr hk⟩
            · simp [bmFind] at h
  | (n, .directory sub) :: rest, cur, k, b, c, h => by
    · simp only [extractGo] at h
      rw [extractGo_find] at h
      cases hr : bmFind (extractGo cur [] rest) k with
      | some v =>
        rw [hr] at h
        simp only [Option.or_some, Option.some.injEq] at h
        subst h
        obtain ⟨p, hp, hc, hk⟩ := extract_sound rest cur k b c hr
        exact ⟨p, by simp only [filePathBlobs]; exact List.mem_append_right _ hp, hc, hk⟩
      | none =>
        rw [hr, Option.none_or] at h
        rw [bmFind_extend_nil _ (extractGo_nodup sub (joinPath cur n) [] (by simp [bmNodup]))] at h
        obtain ⟨p, hp, hc, hk⟩ := extract_sound sub (joinPath cur n) k b c h
        exact ⟨p, by simp only [filePathBlobs]; exact List.mem_append_left _ hp, hc, hk⟩
  | (n, .subfs subject flat) :: rest, cur, k, b, c, h => by
    · simp only [extractGo] at h
      obtain ⟨p, hp, hc, hk⟩ := extract_sound rest cur k b c h
      exact ⟨p, by simp only [filePathBlobs]; exact List.mem_append_right _ hp, hc, hk⟩
  | (n, .unknown tag) :: rest, cur, k, b, c, h => by
    · simp only [extractGo] at h
      obtain ⟨p, hp, hc, hk⟩ := extract_sound rest cur k b c h
      exact ⟨p, by simp only [filePathBlobs]; exact List.mem_append_right _ hp, hc, hk⟩
termination_by d => sizeOf d
decreasing_by all_goals simp_wf <;> omega

theorem or_isSome_left {α : Type} {o o' : Option α} (h : o.isSome) :
    (o.or o').isSome := by
  cases o with
  | some v => rfl
  | none => simp at h

theorem or_isSome_right {α : Type} {o o' : Option α} (h : o'.isSome) :
    (o.or o').isSome := by
  cases o with
  | some v => rfl
  | none => simpa using h

/-- Completeness of blob-map extraction: every `File` leaf is present in the
extracted map both under its full path and under its normalized path. -/
theorem extract_complete : ∀ (d : FsDir) (cur p : Name) (b : BlobRef),
    (p, b) ∈ filePathBlobs cur d →
    (bmFind (extractGo cur [] d) p).isSome ∧
      (bmFind (extractGo cur [] d) (normalizePath p)).isSome
  | [], cur, p, b, hmem => by simp [filePathBlobs] at hmem
  | (n, .file blob enc mt b64) :: rest, cur, p, b, hmem => by
    · simp only [filePathBlobs, List.mem_append, List.mem_singleton,
        Prod.mk.injEq] at hmem
      cases hmem with
      | inr hrest =>
        obtain ⟨h1, h2⟩ := extract_complete rest cur p b hrest
        constructor
        · simp only [extractGo]
          rw [extractGo_find]
          exact or_isSome_left h1
        · simp only [extractGo]
          rw [extractGo_find]
          exact or_isSome_left h2
      | inl hhead =>
        obtain ⟨hp, hb⟩ := hhead
        subst hp
        constructor
        · simp only [extractGo]
          rw [extractGo_find]
          apply or_isSome_right
          by_cases hnf : normalizePath (joinPath cur n) = joinPath cur n <;>
            simp [hnf, bmFind_insert]
        · simp only [extractGo]
          rw [extractGo_find]
          apply or_isSome_right
          by_cases hnf : normalizePath (joinPath cur n) = joinPath cur n <;>
            simp [hnf, bmFind_insert]
  | (n, .directory sub) :: rest, cur, p, b, hmem => by
    · simp only [filePathBlobs, List.mem_append] at hmem
      have hnd : bmNodup (extractGo (joinPath cur n) [] sub) :=
        extractGo_nodup sub (joinPath cur n) [] (by simp [bmNodup])
      cases hmem with
      | inr hrest =>
        obtain ⟨h1, h2⟩ := extract_complete rest cur p b hrest
        constructor
        · simp only [extractGo]
          rw [extractGo_find]
          exact or_isSome_left h1
        · simp only [extractGo]
          rw [extractGo_find]
          exact or_isSome_left h2
      | inl hhead =>
        obtain ⟨h1, h2⟩ := extract_complete sub (joinPath cur n) p b hhead
        constructor
        · simp only [extractGo]
          rw [extractGo_find]
          apply or_isSome_right
          rw [bmFind_extend_nil _ hnd]
          exact h1
        · simp only [extractGo]
          rw [extractGo_find]
          apply or_isSome_right
          rw [bmFind_extend_nil _ hnd]
          exact h2
  | (n, .subfs subject flat) :: rest, cur, p, b, hmem => by
    · simp only [filePathBlobs, List.nil_append] at hmem
      obtain ⟨h1, h2⟩ := extract_complete rest cur p b hmem
      constructor
      · simp only [extractGo]
        rw [extractGo_find]
        exact or_isSome_left h1
      · simp only [extractGo]
        rw [extractGo_find]
        exact or_isSome_left h2
  | (n, .unknown tag) :: rest, cur, p, b, hmem => by
    · simp only [filePathBlobs, List.nil_append] at hmem
      obtain ⟨h1, h2⟩ := extract_complete rest cur p b hmem
      constructor
      · simp only [extractGo]
        rw [extractGo_find]
        exact or_isSome_left h1
      · simp only [extractGo]
        rw [extractGo_find]
        exact or_isSome_left h2
termination_by d => sizeOf d
decreasing_by all_goals simp_wf <;> omega

theorem joinPath_nil (x : Name) : joinPath [] x = x := by simp [joinPath]

theorem extractGo_append (cur : Name) (acc : BlobMap) (xs ys : FsDir) :
    extractGo cur acc (xs ++ ys) = extractGo cur (extractGo cur acc xs) ys := by
  induction xs generalizing acc with
  | nil => simp [extractGo]
  | cons e rest ih =>
    obtain ⟨n, node⟩ := e
    cases node <;> · simp only [List.cons_append, extractGo]
                     rw [ih]

/-! ## Claim C4: blob-map extraction key set -/

/-- Modelled from the spec (§4.2): `extract(tree) -> BlobMap` as the spec
sentence describes it — "for a FileNode, insert `path -> (blobRef,
contentId)`" with `path` the `/`-joined full path from the tree root, and
nothing else.  This is the claim-side definition that C4 compares the code
against. -/
def specExtractBlobMap (d : FsDir) : BlobMap :=
  (filePathBlobs [] d).map (fun e => (e.1, (e.2, e.2.ref)))

/-- **C4 counterexample.**  On the concrete tree `a/f`, the code's
`extract_blob_map` also binds the normalized key `"f"`, which is not the full
site-relative path of any `File` leaf: the extracted key set is strictly
larger than the spec's "exactly the `/`-joined-from-root paths of the tree's
File leaves". -/
theorem extract_blob_map_not_only_full_paths :
    (bmFind (extractBlobMap
        [(['a'], .directory [(['f'], .file ⟨['c']⟩ none none none)])]) ['f']).isSome = true ∧
    (bmFind (specExtractBlobMap
        [(['a'], .directory [(['f'], .file ⟨['c']⟩ none none none)])]) ['f']).isSome = false := by
  constructor
  · simp [extractBlobMap, extractGo, bmFind, bmInsert, bmExtend, normalizePath,
      afterFirstSlash, joinPath]
  · simp [specExtractBlobMap, filePathBlobs, bmFind, joinPath]

/-- **C4 (amended).**  `extract_blob_map` produces a map whose keys are
exactly the `/`-joined-from-root full paths of the tree's `File` leaves
*together with* their normalizations (first path component stripped);
each binding carries the blob reference of a leaf with that full or
normalized path and the content id read off that reference.  Directory
entries contribute their children with the child name prefixed; `Subfs`
(shard-reference) and `Unknown` nodes contribute nothing
(`filePathBlobs` collects `File` leaves only). -/
theorem extract_blob_map_characterization (d : FsDir) :
    (∀ k b c, bmFind (extractBlobMap d) k = some (b, c) →
      ∃ p, (p, b) ∈ filePathBlobs [] d ∧ c = b.ref ∧ (k = p ∨ k = normalizePath p)) ∧
    (∀ p b, (p, b) ∈ filePathBlobs [] d →
      (bmFind (extractBlobMap d) p).isSome ∧
        (bmFind (extractBlobMap d) (normalizePath p)).isSome) :=
  ⟨fun k b c h => extract_sound d [] k b c h, fun p b h => extract_complete d [] p b h⟩

/-- Witness for C4 (amended) on a concrete one-leaf tree. -/
theorem extract_blob_map_characterization_witness :
    ((['a', '/', 'f'], (⟨['c']⟩ : BlobRef)) ∈
        filePathBlobs [] [(['a'], .directory [(['f'], .file ⟨['c']⟩ none none none)])]) ∧
    (bmFind (extractBlobMap
        [(['a'], .directory [(['f'], .file ⟨['c']⟩ none none none)])]) ['a', '/', 'f']).isSome ∧
    (bmFind (extractBlobMap
        [(['a'], .directory [(['f'], .file ⟨['c']⟩ none none none)])])
        (normalizePath ['a', '/', 'f'])).isSome := by
  have hmem : (['a', '/', 'f'], (⟨['c']⟩ : BlobRef)) ∈
      filePathBlobs [] [(['a'], .directory [(['f'], .file ⟨['c']⟩ none none none)])] := by
    simp [filePathBlobs, joinPath]
  have h := (extract_blob_map_characterization
      [(['a'], .directory [(['f'], .file ⟨['c']⟩ none none none)])]).2 _ _ hmem
  exact ⟨hmem, h.1, h.2⟩

/-! ## Claim C9: double-keyed insertion and last-writer-wins collisions -/

/-- **C9.**  (i) A `File` leaf is inserted under both its full path and its
normalized path: looking either key up in the extraction of
`(file leaf) :: rest` yields the leaf's `(blobRef, contentId)` unless a
later entry (`rest`, whose bindings shadow earlier ones) rebinds the key.
(ii) When two files in different top-level directories share a normalized
key `q`, the map binds `q` to the pair of whichever file the traversal
visited last: if directory `b` (visited after `a`) binds `q` to `vB` and the
entries after `b` do not bind `q`, then the whole tree's map binds `q` to
`vB`, irrespective of what `a` bound it to. -/
theorem extract_blob_map_double_key_last_wins :
    (∀ (cur : Name) (acc : BlobMap) (n : Name) (blob : BlobRef)
        (enc mt : Option Name) (b64 : Option Bool) (rest : FsDir) (key : Name),
      (key = joinPath cur n ∨ key = normalizePath (joinPath cur n)) →
      bmFind (extractGo cur acc ((n, .file blob enc mt b64) :: rest)) key =
        (bmFind (extractGo cur [] rest) key).or (some (blob, blob.ref))) ∧
    (∀ (l1 l2 l3 : FsDir) (a b q : Name) (A B : FsDir) (vB : BlobRef × Name),
      bmFind (extractGo b [] B) q = some vB →
      bmFind (extractGo [] [] l3) q = none →
      bmFind (extractBlobMap
          (l1 ++ (a, .directory A) :: l2 ++ (b, .directory B) :: l3)) q = some vB) := by
  constructor
  · intro cur acc n blob enc mt b64 rest key hkey
    simp only [extractGo]
    rw [extractGo_find]
    congr 1
    by_cases hnf : normalizePath (joinPath cur n) = joinPath cur n
    · rw [if_pos hnf, bmFind_insert]
      rcases hkey with hk | hk
      · rw [if_pos (hk.trans hnf.symm)]
      · rw [if_pos hk]
    · rw [if_neg hnf, bmFind_insert, bmFind_insert]
      rcases hkey with hk | hk
      · rw [if_pos hk]
      · have hne : ¬ key = joinPath cur n := fun hcon => hnf (hk.symm.trans hcon)
        rw [if_neg hne, if_pos hk]
  · intro l1 l2 l3 a b q A B vB hB hl3
    unfold extractBlobMap
    rw [extractGo_append]
    simp only [extractGo]
    rw [extractGo_append]
    simp only [extractGo]
    rw [extractGo_find, hl3, Option.none_or, bmExtend_find, joinPath_nil,
      bmFind_extend_nil _ (extractGo_nodup B b [] (by simp [bmNodup])), hB]
    rfl

/-- Witness for C9: two top-level directories `a` and `b` each holding a file
`f`; the shared normalized key `f` ends up bound to `b/f`'s blob. -/
theorem extract_blob_map_double_key_last_wins_witness :
    (['f'] = joinPath [] ['f'] ∨ ['f'] = normalizePath (joinPath [] ['f'])) ∧
    bmFind (extractGo [] [] ((['f'], .file ⟨['c']⟩ none none none) :: [])) ['f'] =
      (bmFind (extractGo [] [] ([] : FsDir)) ['f']).or (some (⟨['c']⟩, ['c'])) ∧
    bmFind (extractGo ['b'] [] [(['f'], .file ⟨['d']⟩ none none none)]) ['f'] =
      some (⟨['d']⟩, ['d']) ∧
    bmFind (extractGo [] [] ([] : FsDir)) ['f'] = none ∧
    bmFind (extractBlobMap
        ([] ++ (['a'], .directory [(['f'], .file ⟨['c']⟩ none none none)]) ::
          [] ++ (['b'], .directory [(['f'], .file ⟨['d']⟩ none none none)]) :: []))
      ['f'] = some (⟨['d']⟩, ['d']) := by
  have h1 : bmFind (extractGo ['b'] [] [(['f'], .file ⟨['d']⟩ none none none)]) ['f'] =
      some (⟨['d']⟩, ['d']) := by
    simp [extractGo, bmFind, bmInsert, normalizePath, afterFirstSlash, joinPath]
  have h2 : bmFind (extractGo [] [] ([] : FsDir)) ['f'] = none := by
    simp [extractGo, bmFind]
  refine ⟨Or.inl (by simp [joinPath]), ?_, h1, h2, ?_⟩
  · exact extract_blob_map_double_key_last_wins.1 [] [] ['f'] ⟨['c']⟩ none none none []
      ['f'] (Or.inl (by simp [joinPath]))
  · exact extract_blob_map_double_key_last_wins.2 [] [] [] ['a'] ['b'] ['f'] _ _ _ h1 h2

/-! ## Dedup upload engine (`main.rs::process_file`)

External collaborators are parameters: `gzipFn` (flate2 `GzEncoder`),
`b64Fn` (base64 `BASE64_STANDARD.encode`), `sha256` (sha2 digest inside
`compute_cid`), `uploadFn` (the agent's `upload_blob`, returning the blob
reference the store hands back), `mimeGuess` (the `mime_guess` crate). -/

/-- Result of `process_file`: the built `File` node, whether the previous
deploy's blob was reused, and the canonical bytes that were uploaded, if an
upload happened. -/
structure FileBuildResult where
  node : FsNode
  reused : Bool
  uploaded : Option Bytes

/-- `main.rs::process_file`: read the file, gzip it, base64-encode it,
compute the content id of the canonical form, and look the file's full
site-relative path up in the previous deploy's blob map.  If the path is
bound and the stored content id equals the computed one, reuse the stored
blob reference without uploading; otherwise upload the canonical bytes and
use the returned reference. -/
def processFile (gzipFn b64Fn sha256 : Bytes → Bytes) (uploadFn : Bytes → BlobRef)
    (mimeGuess : Name → Name) (fileData : Bytes) (filePath filePathKey : Name)
    (existingBlobs : BlobMap) : FileBuildResult :=
  let originalMime := mimeGuess filePath
  let gzipped := gzipFn fileData
  let base64Bytes := b64Fn gzipped
  let fileCid := computeCid sha256 base64Bytes
  match bmFind existingBlobs filePathKey with
  | some (existingBlobRef, existingCid) =>
    if existingCid = fileCid then
      { node := .file existingBlobRef (some "gzip".toList) (some originalMime) (some true)
        reused := true
        uploaded := none }
    else
      let blob := uploadFn base64Bytes
      { node := .file blob (some "gzip".toList) (some originalMime) (some true)
        reused := false
        uploaded := some base64Bytes }
  | none =>
    let blob := uploadFn base64Bytes
    { node := .file blob (some "gzip".toList) (some originalMime) (some true)
      reused := false
      uploaded := some base64Bytes }

/-- **C1.**  For every file processed during a deploy: if the previous
deploy's blob map binds the file's full site-relative path to a reference
whose content id equals the content id of the file's canonical form (gzip
then base64), the existing reference is reused and nothing is uploaded;
otherwise (path absent, or content id different) the canonical bytes are
uploaded and the returned reference is used in the new `File` node. -/
theorem process_file_dedup (gzipFn b64Fn sha256 : Bytes → Bytes)
    (uploadFn : Bytes → BlobRef) (mimeGuess : Name → Name)
    (fileData : Bytes) (filePath filePathKey : Name) (existingBlobs : BlobMap) :
    (∀ r c, bmFind existingBlobs filePathKey = some (r, c) →
      c = computeCid sha256 (b64Fn (gzipFn fileData)) →
      processFile gzipFn b64Fn sha256 uploadFn mimeGuess fileData filePath filePathKey
          existingBlobs =
        { node := .file r (some "gzip".toList) (some (mimeGuess filePath)) (some true)
          reused := true
          uploaded := none }) ∧
    ((bmFind existingBlobs filePathKey = none ∨
      ∃ r c, bmFind existingBlobs filePathKey = some (r, c) ∧
        c ≠ computeCid sha256 (b64Fn (gzipFn fileData))) →
      processFile gzipFn b64Fn sha256 uploadFn mimeGuess fileData filePath filePathKey
          existingBlobs =
        { node := .file (uploadFn (b64Fn (gzipFn fileData))) (some "gzip".toList)
            (some (mimeGuess filePath)) (some true)
          reused := false
          uploaded := some (b64Fn (gzipFn fileData)) }) := by
  constructor
  · intro r c hfind hcid
    unfold processFile
    rw [hfind]
    simp only [if_pos hcid]
  · intro hmiss
    unfold processFile
    rcases hmiss with hnone | ⟨r, c, hfind, hne⟩
    · rw [hnone]
    · rw [hfind]
      simp only [if_neg hne]

/-- Witness for C1: a concrete previous blob map binding the key to the
matching content id makes `processFile` reuse the reference and upload
nothing. -/
theorem process_file_dedup_witness :
    bmFind [(['k'], (⟨['r']⟩, computeCid (fun _ => [0]) ([] : Bytes)))] ['k'] =
      some (⟨['r']⟩, computeCid (fun _ => [0]) ([] : Bytes)) ∧
    processFile id id (fun _ => [0]) (fun _ => ⟨['u']⟩) (fun _ => ['m']) [] ['p'] ['k']
        [(['k'], (⟨['r']⟩, computeCid (fun _ => [0]) ([] : Bytes)))] =
      { node := .file ⟨['r']⟩ (some "gzip".toList) (some ['m']) (some true)
        reused := true
        uploaded := none } := by
  have hfind : bmFind [(['k'], (⟨['r']⟩, computeCid (fun _ => [0]) ([] : Bytes)))] ['k'] =
      some (⟨['r']⟩, computeCid (fun _ => [0]) ([] : Bytes)) := by
    simp [bmFind]
  exact ⟨hfind,
    (process_file_dedup id id (fun _ => [0]) (fun _ => ⟨['u']⟩) (fun _ => ['m'])
      [] ['p'] ['k'] _).1 _ _ hfind rfl⟩

/-! ## Pull-side shard-expansion rewrite (`pull.rs`)

`replace_subfs_with_content` rewrites a fetched `fs` tree, replacing each
`Subfs` (shard reference) whose record was fetched by that record's entries —
spliced in place for a flat merge, wrapped in a directory named after the
mount entry for a nested merge; subfs entries are converted to `fs` entries
by `convert_subfs_entry_to_fs`. -/

/-- `pull.rs::convert_subfs_entry_to_fs`, lifted to entry lists: files and
directories convert structurally; a *nested, unexpanded* subfs reference is
converted to an empty directory (the code warns and drops it); unknown nodes
pass through. -/
def convertSubfsDirToFs : SubDir → FsDir
  | [] => []
  | (n, .file blob enc mt b64) :: rest =>
    (n, .file blob enc mt b64) :: convertSubfsDirToFs rest
  | (n, .directory entries) :: rest =>
    (n, .directory (convertSubfsDirToFs entries)) :: convertSubfsDirToFs rest
  | (n, .subfs _) :: rest =>
    (n, .directory []) :: convertSubfsDirToFs rest
  | (n, .unknown tag) :: rest =>
    (n, .unknown tag) :: convertSubfsDirToFs rest
termination_by d => sizeOf d
decreasing_by all_goals simp_wf <;> omega

/-- The `HashMap<String, subfs::Directory>` of fetched shard roots, keyed by
mount path. -/
abbrev SubfsMap := List (Name × SubDir)

/-- Lookup in the fetched-shard map. -/
def smFind : SubfsMap → Name → Option SubDir
  | [], _ => none
  | (k, v) :: rest, key => if key = k then some v else smFind rest key

/-- `pull.rs::replace_subfs_with_content`: flat-map over the entries.  A
`Subfs` entry whose mount path is in the fetched map is replaced by the
shard's converted entries — spliced directly when `flat.unwrap_or(true)`,
wrapped in a synthetic directory named after the entry otherwise; an
unresolved `Subfs` is dropped with a warning; directories are rewritten
recursively; files and unknown nodes pass through. -/
def replaceSubfsWithContent (subfsMap : SubfsMap) : FsDir → Name → FsDir
  | [], _ => []
  | (n, node) :: rest, currentPath =>
    let fullPath := joinPath currentPath n
    (match node with
     | .subfs _subject flat =>
       match smFind subfsMap fullPath with
       | some subfsDir =>
         if flat.getD true then convertSubfsDirToFs subfsDir
         else [(n, .directory (convertSubfsDirToFs subfsDir))]
       | none => []
     | .directory dir =>
       [(n, .directory (replaceSubfsWithContent subfsMap dir fullPath))]
     | .file blob enc mt b64 => [(n, .file blob enc mt b64)]
     | .unknown tag => [(n, .unknown tag)]) ++
      replaceSubfsWithContent subfsMap rest currentPath
termination_by d => sizeOf d
decreasing_by all_goals simp_wf <;> omega

theorem replaceSubfsWithContent_append (subfsMap : SubfsMap) (xs ys : FsDir)
    (cur : Name) :
    replaceSubfsWithContent subfsMap (xs ++ ys) cur =
      replaceSubfsWithContent subfsMap xs cur ++ replaceSubfsWithContent subfsMap ys cur := by
  induction xs with
  | nil => simp [replaceSubfsWithContent]
  | cons e rest ih =>
    obtain ⟨n, node⟩ := e
    cases node <;> · simp only [List.cons_append, replaceSubfsWithContent]
                     rw [ih, List.append_assoc]

/-- **C6.**  For a shard reference mounted at entry name `n` whose target
shard was resolved (its mount path is bound in the fetched map), the
expansion rewrite replaces the reference in Nested mode (`flat = false`) by a
single directory named `n` holding the shard root's (converted) entries, and
in Flat mode (`flat = true`) splices those entries directly into the parent's
entry list at the reference's position, with no wrapper directory; the
surrounding siblings are rewritten independently on both sides. -/
theorem replace_subfs_nested_vs_flat (subfsMap : SubfsMap) (l1 l2 : FsDir)
    (n subject cur : Name) (flat : Bool) (shard : SubDir)
    (hres : smFind subfsMap (joinPath cur n) = some shard) :
    replaceSubfsWithContent subfsMap (l1 ++ (n, .subfs subject (some flat)) :: l2) cur =
      replaceSubfsWithContent subfsMap l1 cur ++
      (if flat then convertSubfsDirToFs shard
       else [(n, .directory (convertSubfsDirToFs shard))]) ++
      replaceSubfsWithContent subfsMap l2 cur := by
  rw [replaceSubfsWithContent_append]
  simp only [replaceSubfsWithContent, hres, Option.getD_some]
  rw [List.append_assoc]

/-- Witness for C6 on concrete trees, in both merge modes. -/
theorem replace_subfs_nested_vs_flat_witness :
    smFind [(['a'], [(['f'], SubNode.file ⟨['c']⟩ none none none)])] (joinPath [] ['a']) =
      some [(['f'], SubNode.file ⟨['c']⟩ none none none)] ∧
    replaceSubfsWithContent [(['a'], [(['f'], SubNode.file ⟨['c']⟩ none none none)])]
        ([] ++ (['a'], FsNode.subfs ['u'] (some false)) :: []) [] =
      [] ++ [(['a'], FsNode.directory [(['f'], FsNode.file ⟨['c']⟩ none none none)])] ++ [] ∧
    replaceSubfsWithContent [(['a'], [(['f'], SubNode.file ⟨['c']⟩ none none none)])]
        ([] ++ (['a'], FsNode.subfs ['u'] (some true)) :: []) [] =
      [] ++ [(['f'], FsNode.file ⟨['c']⟩ none none none)] ++ [] := by
  have hres : smFind [(['a'], [(['f'], SubNode.file ⟨['c']⟩ none none none)])]
      (joinPath [] ['a']) = some [(['f'], SubNode.file ⟨['c']⟩ none none none)] := by
    simp [smFind, joinPath]
  have hn := replace_subfs_nested_vs_flat
    [(['a'], [(['f'], SubNode.file ⟨['c']⟩ none none none)])] [] [] ['a'] ['u'] [] false
    [(['f'], SubNode.file ⟨['c']⟩ none none none)] hres
  have hf := replace_subfs_nested_vs_flat
    [(['a'], [(['f'], SubNode.file ⟨['c']⟩ none none none)])] [] [] ['a'] ['u'] [] true
    [(['f'], SubNode.file ⟨['c']⟩ none none none)] hres
  refine ⟨hres, ?_, ?_⟩
  · rw [hn]
    simp [replaceSubfsWithContent, convertSubfsDirToFs]
  · rw [hf]
    simp [replaceSubfsWithContent, convertSubfsDirToFs]

/-! ## Sharding engine (`subfs_utils.rs` and the split loop of
`main.rs::deploy_site`)

`estimate_directory_size` is `serde_json::to_string(directory).len()`, whose
exact value depends on the serde layout of the generated `place_wisp` types
(not under `cli/src/`); it is abstracted as a size function `sizeJson`
parameter, so every theorem below holds for any size estimate.  Record
creation (`Tid::now_0` + `put_record`) is abstracted as a function `mkUri`
from the attempt number to the new record's AT-URI. -/

/-- `subfs_utils.rs::count_files_in_directory`: `File` leaves reachable
without crossing a `Subfs` reference. -/
def countFilesInDirectory : FsDir → Nat
  | [] => 0
  | (_, .file _ _ _ _) :: rest => 1 + countFilesInDirectory rest
  | (_, .directory sub) :: rest => countFilesInDirectory sub + countFilesInDirectory rest
  | (_, .subfs _ _) :: rest => countFilesInDirectory rest
  | (_, .unknown _) :: rest => countFilesInDirectory rest
termination_by d => sizeOf d
decreasing_by all_goals simp_wf <;> omega

/-- `subfs_utils.rs::SplittableDirectory`. -/
structure SplittableDirectory where
  path : Name
  directory : FsDir
  size : Nat
  fileCount : Nat

/-- The unsorted traversal of `subfs_utils.rs::find_large_directories`:
every directory entry (at any depth) paired with its path, size estimate and
file count, parents before their descendants. -/
def findLargeDirectoriesGo (sizeJson : FsDir → Nat) : FsDir → Name → List SplittableDirectory
  | [], _ => []
  | (n, .directory sub) :: rest, cur =>
    let dirPath := joinPath cur n
    ({ path := dirPath, directory := sub, size := sizeJson sub,
       fileCount := countFilesInDirectory sub } ::
      findLargeDirectoriesGo sizeJson sub dirPath) ++
      findLargeDirectoriesGo sizeJson rest cur
  | _ :: rest, cur => findLargeDirectoriesGo sizeJson rest cur
termination_by d => sizeOf d
decreasing_by all_goals simp_wf <;> omega

/-- Stable insertion for the descending-by-size sort (`sort_by(b.size.cmp(a.size))`). -/
def insertBySize (x : SplittableDirectory) : List SplittableDirectory → List SplittableDirectory
  | [] => [x]
  | y :: rest => if y.size < x.size then x :: y :: rest else y :: insertBySize x rest

/-- Stable sort, largest size first. -/
def sortBySizeDesc (l : List SplittableDirectory) : List SplittableDirectory :=
  l.foldr insertBySize []

/-- `subfs_utils.rs::find_large_directories`: all candidate directories,
sorted descending by serialized-size estimate. -/
def findLargeDirectories (sizeJson : FsDir → Nat) (d : FsDir) (cur : Name) :
    List SplittableDirectory :=
  sortBySizeDesc (findLargeDirectoriesGo sizeJson d cur)

mutual

/-- `subfs_utils.rs::replace_directory_with_subfs` (path already split on
`'/'`): an empty part list is the "Cannot replace root directory" error; a
single part replaces the matching top-level entry by a `Subfs` node carrying
the record URI and an explicit `flat` flag; a longer path descends into the
matching directory entry, dropping the entry if the recursive replacement
fails. -/
def replaceDWS (uri : Name) (flat : Bool) : List Name → FsDir → Option FsDir
  | [], _ => none
  | [target], d =>
    some (d.map fun e => if e.1 = target then (e.1, .subfs uri (some flat)) else e)
  | first :: p2 :: ps, d => some (replaceDWSEntries uri flat first (p2 :: ps) d)
termination_by parts d => (parts.length, sizeOf d)

/-- Entry loop of the recursive case of `replace_directory_with_subfs`
(the `filter_map` over the parent's entries). -/
def replaceDWSEntries (uri : Name) (flat : Bool) (first : Name) (restPath : List Name) :
    FsDir → FsDir
  | [] => []
  | (n, node) :: rest =>
    (if n = first then
      match node with
      | .directory sub =>
        match replaceDWS uri flat restPath sub with
        | some updated => [(n, .directory updated)]
        | none => []
      | _ => [(n, node)]
     else [(n, node)]) ++ replaceDWSEntries uri flat first restPath rest
termination_by d => (restPath.length, sizeOf d)

end

/-- `main.rs` budget constant: `MAX_MANIFEST_SIZE = 140 * 1024`. -/
def MAX_MANIFEST_SIZE : Nat := 140 * 1024

/-- `main.rs` budget constant: `FILE_COUNT_THRESHOLD = 250`. -/
def FILE_COUNT_THRESHOLD : Nat := 250

/-- `main.rs` budget constant: `TARGET_FILE_COUNT = 200`. -/
def TARGET_FILE_COUNT : Nat := 200

/-- `main.rs` budget constant: `MAX_SPLIT_ATTEMPTS = 50`. -/
def MAX_SPLIT_ATTEMPTS : Nat := 50

/-- Outcome of the split phase of `deploy_site`. -/
inductive SplitResult where
  /-- the loop ended without error and the manifest record is committed -/
  | committed (dir : FsDir) (fileCount : Nat) (subfsUris : List (Name × Name))
      (attemptsUsed : Nat)
  /-- `attempts >= MAX_SPLIT_ATTEMPTS` after the loop: "Exceeded maximum
  split attempts" with the size/count actually achieved -/
  | budgetError (attemptsUsed size fileCount : Nat)
  /-- `replace_directory_with_subfs` returned an error, propagated by `?` -/
  | replaceError

/-- The check after the `while` loop in `deploy_site`: exceeding the attempt
bound is fatal even when the last split brought the manifest within budget;
otherwise the working tree is committed. -/
def splitFinish (sizeJson : FsDir → Nat) (working : FsDir) (count : Nat)
    (uris : List (Name × Name)) (attempts : Nat) : SplitResult :=
  if MAX_SPLIT_ATTEMPTS ≤ attempts then
    .budgetError attempts (sizeJson working) count
  else .committed working count uris attempts

/-- The `while` loop of `deploy_site` (lines 291-345): while the size or
count budget is exceeded and attempts remain, split off the largest candidate
directory as a new subfs record (`flat = false`), replace it in the working
tree, deduct its file count, and re-estimate; break early when both budgets
are met or no splittable subdirectory remains. -/
def splitLoop (sizeJson : FsDir → Nat) (mkUri : Nat → Name) (working : FsDir)
    (count : Nat) (uris : List (Name × Name)) (attempts : Nat) : SplitResult :=
  if (MAX_MANIFEST_SIZE < sizeJson working ∨ TARGET_FILE_COUNT < count) ∧
      attempts < MAX_SPLIT_ATTEMPTS then
    let attempts' := attempts + 1
    match findLargeDirectories sizeJson working [] with
    | [] => splitFinish sizeJson working count uris attempts'
    | largest :: _ =>
      let subfsUri := mkUri attempts'
      match replaceDWS subfsUri false (splitOnSlash largest.path) working with
      | none => .replaceError
      | some working' =>
        let count' := count - largest.fileCount
        let uris' := uris ++ [(subfsUri, largest.path)]
        if sizeJson working' ≤ MAX_MANIFEST_SIZE ∧ count' ≤ TARGET_FILE_COUNT then
          splitFinish sizeJson working' count' uris' attempts'
        else splitLoop sizeJson mkUri working' count' uris' attempts'
  else splitFinish sizeJson working count uris attempts
termination_by MAX_SPLIT_ATTEMPTS - attempts
decreasing_by
  simp_wf
  omega

/-- The split phase of `deploy_site` (lines 284-361): splitting is entered
only when the fresh tree's file count reaches `FILE_COUNT_THRESHOLD` or its
size estimate exceeds `MAX_MANIFEST_SIZE`; otherwise the tree is committed
as-is. -/
def deployShard (sizeJson : FsDir → Nat) (mkUri : Nat → Name) (rootDir : FsDir)
    (totalFiles : Nat) : SplitResult :=
  if FILE_COUNT_THRESHOLD ≤ totalFiles ∨ MAX_MANIFEST_SIZE < sizeJson rootDir then
    splitLoop sizeJson mkUri rootDir totalFiles [] 0
  else .committed rootDir totalFiles [] 0

theorem replaceDWS_isSome (uri : Name) (flat : Bool) (parts : List Name)
    (h : parts ≠ []) (d : FsDir) : (replaceDWS uri flat parts d).isSome := by
  match parts with
  | [] => exact absurd rfl h
  | [target] => simp [replaceDWS]
  | first :: p2 :: ps => simp [replaceDWS]

/-- Every run of the split loop ends in one of three ways: a commit with both
budgets met, a commit with no splittable subdirectory left (whatever the
budgets say), or the fatal "exceeded maximum split attempts" error with the
attempt counter at exactly `MAX_SPLIT_ATTEMPTS`. -/
theorem splitLoop_classification (sizeJson : FsDir → Nat) (mkUri : Nat → Name) :
    ∀ (fuel : Nat) (working : FsDir) (count : Nat) (uris : List (Name × Name))
      (attempts : Nat), attempts ≤ MAX_SPLIT_ATTEMPTS →
      fuel = MAX_SPLIT_ATTEMPTS - attempts →
      (∃ d c us a, splitLoop sizeJson mkUri working count uris attempts =
          .committed d c us a ∧ a < MAX_SPLIT_ATTEMPTS ∧
          ((sizeJson d ≤ MAX_MANIFEST_SIZE ∧ c ≤ TARGET_FILE_COUNT) ∨
            findLargeDirectories sizeJson d [] = [])) ∨
      (∃ s c, splitLoop sizeJson mkUri working count uris attempts =
          .budgetError MAX_SPLIT_ATTEMPTS s c) := by
  intro fuel
  induction fuel with
  | zero =>
    intro working count uris attempts hle hfuel
    have ha : attempts = MAX_SPLIT_ATTEMPTS := by omega
    rw [splitLoop]
    rw [if_neg (by simp [ha])]
    right
    rw [splitFinish, if_pos (by omega), ha]
    exact ⟨_, _, rfl⟩
  | succ f ih =>
    intro working count uris attempts hle hfuel
    have hlt : attempts < MAX_SPLIT_ATTEMPTS := by omega
    rw [splitLoop]
    by_cases hcond : MAX_MANIFEST_SIZE < sizeJson working ∨ TARGET_FILE_COUNT < count
    · rw [if_pos ⟨hcond, hlt⟩]
      cases hfld : findLargeDirectories sizeJson working [] with
      | nil =>
        simp only
        by_cases hfin : MAX_SPLIT_ATTEMPTS ≤ attempts + 1
        · right
          rw [splitFinish, if_pos hfin]
          have : attempts + 1 = MAX_SPLIT_ATTEMPTS := by omega
          rw [this]
          exact ⟨_, _, rfl⟩
        · left
          rw [splitFinish, if_neg hfin]
          exact ⟨working, count, uris, attempts + 1, rfl, by omega, Or.inr hfld⟩
      | cons largest others =>
        simp only
        obtain ⟨working', hw⟩ := Option.isSome_iff_exists.mp
          (replaceDWS_isSome (mkUri (attempts + 1)) false (splitOnSlash largest.path)
            (splitOnSlash_ne_nil largest.path) working)
        rw [hw]
        simp only
        by_cases hfits : sizeJson working' ≤ MAX_MANIFEST_SIZE ∧
            count - largest.fileCount ≤ TARGET_FILE_COUNT
        · rw [if_pos hfits]
          by_cases hfin : MAX_SPLIT_ATTEMPTS ≤ attempts + 1
          · right
            rw [splitFinish, if_pos hfin]
            have : attempts + 1 = MAX_SPLIT_ATTEMPTS := by omega
            rw [this]
            exact ⟨_, _, rfl⟩
          · left
            rw [splitFinish, if_neg hfin]
            exact ⟨working', count - largest.fileCount, _, attempts + 1, rfl, by omega,
              Or.inl hfits⟩
        · rw [if_neg hfits]
          exact ih working' (count - largest.fileCount)
            (uris ++ [(mkUri (attempts + 1), largest.path)]) (attempts + 1)
            (by omega) (by omega)
    · rw [if_neg (by tauto)]
      left
      rw [splitFinish, if_neg (by omega)]
      push_neg at hcond
      exact ⟨working, count, uris, attempts, rfl, hlt, Or.inl ⟨hcond.1, hcond.2⟩⟩

/-- **C2 counterexample.**  A tree whose size estimate exceeds
`maxManifestBytes` but which has no subdirectory to split: the loop breaks
("No more subdirectories to split - stopping") after one attempt and the
oversized tree is *committed* — there is no `BudgetExceeded` error, contrary
to the claim that such a tree "terminates with BudgetExceeded rather than
looping or committing". -/
theorem split_no_subdirs_commits :
    deployShard (fun _ => 200000) (fun _ => ['u'])
        [(['x'], FsNode.file ⟨['c']⟩ none none none)] 1 =
      .committed [(['x'], FsNode.file ⟨['c']⟩ none none none)] 1 [] 1 ∧
    MAX_MANIFEST_SIZE <
      (fun (_ : FsDir) => 200000) [(['x'], FsNode.file ⟨['c']⟩ none none none)] ∧
    findLargeDirectories (fun _ => 200000)
      [(['x'], FsNode.file ⟨['c']⟩ none none none)] [] = [] := by
  refine ⟨?_, by norm_num [MAX_MANIFEST_SIZE], ?_⟩
  · rw [deployShard, if_pos (by norm_num [MAX_MANIFEST_SIZE, FILE_COUNT_THRESHOLD])]
    rw [splitLoop, if_pos
      (by constructor <;> norm_num [MAX_MANIFEST_SIZE, TARGET_FILE_COUNT, MAX_SPLIT_ATTEMPTS])]
    simp [findLargeDirectories, findLargeDirectoriesGo, sortBySizeDesc, splitFinish,
      MAX_SPLIT_ATTEMPTS]
  · simp [findLargeDirectories, findLargeDirectoriesGo, sortBySizeDesc]

/-- **C2 (amended).**  For every input tree whose size or file count exceeds
its trigger, the split loop terminates, in one of exactly three ways: a
commit with both size and count within budget; a commit of the current
working tree when no splittable subdirectory remains (even if it still
exceeds `maxManifestBytes` — no `BudgetExceeded` is raised in that case); or
the fatal "exceeded maximum split attempts" error, raised exactly when the
attempt counter has reached `maxSplitAttempts` (including the corner case
where the 50th split just brought the tree within budget). -/
theorem deploy_split_outcomes (sizeJson : FsDir → Nat) (mkUri : Nat → Name)
    (rootDir : FsDir) (totalFiles : Nat)
    (htrig : FILE_COUNT_THRESHOLD ≤ totalFiles ∨ MAX_MANIFEST_SIZE < sizeJson rootDir) :
    (∃ d c us a, deployShard sizeJson mkUri rootDir totalFiles =
        .committed d c us a ∧ a < MAX_SPLIT_ATTEMPTS ∧
        ((sizeJson d ≤ MAX_MANIFEST_SIZE ∧ c ≤ TARGET_FILE_COUNT) ∨
          findLargeDirectories sizeJson d [] = [])) ∨
    (∃ s c, deployShard sizeJson mkUri rootDir totalFiles =
        .budgetError MAX_SPLIT_ATTEMPTS s c) := by
  unfold deployShard
  rw [if_pos htrig]
  exact splitLoop_classification sizeJson mkUri (MAX_SPLIT_ATTEMPTS - 0) rootDir
    totalFiles [] 0 (by norm_num [MAX_SPLIT_ATTEMPTS]) rfl

/-- Witness for C2 (amended) at the concrete no-subdirectory tree. -/
theorem deploy_split_outcomes_witness :
    (FILE_COUNT_THRESHOLD ≤ 1 ∨
      MAX_MANIFEST_SIZE < (fun (_ : FsDir) => 200000)
        [(['x'], FsNode.file ⟨['c']⟩ none none none)]) ∧
    ((∃ d c us a, deployShard (fun _ => 200000) (fun _ => ['u'])
        [(['x'], FsNode.file ⟨['c']⟩ none none none)] 1 =
        .committed d c us a ∧ a < MAX_SPLIT_ATTEMPTS ∧
        (((fun (_ : FsDir) => 200000) d ≤ MAX_MANIFEST_SIZE ∧ c ≤ TARGET_FILE_COUNT) ∨
          findLargeDirectories (fun _ => 200000) d [] = [])) ∨
    (∃ s c, deployShard (fun _ => 200000) (fun _ => ['u'])
        [(['x'], FsNode.file ⟨['c']⟩ none none none)] 1 =
        .budgetError MAX_SPLIT_ATTEMPTS s c)) :=
  ⟨Or.inr (by norm_num [MAX_MANIFEST_SIZE]),
   deploy_split_outcomes (fun _ => 200000) (fun _ => ['u'])
     [(['x'], FsNode.file ⟨['c']⟩ none none none)] 1
     (Or.inr (by norm_num [MAX_MANIFEST_SIZE]))⟩

/-! ## Claim C10: the `flat` flag — pull-side default vs deploy-side value -/

/-- The `flat` flags of all `Subfs` nodes of a tree, at any depth. -/
def subfsFlats : FsDir → List (Option Bool)
  | [] => []
  | (_, .subfs _ flat) :: rest => flat :: subfsFlats rest
  | (_, .directory sub) :: rest => subfsFlats sub ++ subfsFlats rest
  | (_, .file _ _ _ _) :: rest => subfsFlats rest
  | (_, .unknown _) :: rest => subfsFlats rest
termination_by d => sizeOf d
decreasing_by all_goals simp_wf <;> omega

theorem subfsFlats_map_replace (uri target : Name) (flat : Bool) (d : FsDir) :
    ∀ f ∈ subfsFlats (d.map fun e =>
        if e.1 = target then (e.1, FsNode.subfs uri (some flat)) else e),
      f ∈ subfsFlats d ∨ f = some flat := by
  induction d with
  | nil => simp [subfsFlats]
  | cons e rest ih =>
    obtain ⟨n, node⟩ := e
    by_cases hn : n = target
    · simp only [List.map_cons, if_pos (by simpa using hn)]
      intro f hf
      simp only [subfsFlats, List.mem_cons] at hf
      rcases hf with hf | hf
      · exact Or.inr hf
      · rcases ih f hf with h | h
        · left
          cases node <;> simp [subfsFlats, h]
        · exact Or.inr h
    · simp only [List.map_cons, if_neg (by simpa using hn)]
      intro f hf
      cases node with
      | file blob enc mt b64 =>
        simp only [subfsFlats] at hf ⊢
        rcases ih f hf with h | h
        · exact Or.inl h
        · exact Or.inr h
      | directory sub =>
        simp only [subfsFlats, List.mem_append] at hf ⊢
        rcases hf with hf | hf
        · exact Or.inl (Or.inl hf)
        · rcases ih f hf with h | h
          · exact Or.inl (Or.inr h)
          · exact Or.inr h
      | subfs subject fl =>
        simp only [subfsFlats, List.mem_cons] at hf ⊢
        rcases hf with hf | hf
        · exact Or.inl (Or.inl hf)
        · rcases ih f hf with h | h
          · exact Or.inl (Or.inr h)
          · exact Or.inr h
      | unknown tag =>
        simp only [subfsFlats] at hf ⊢
        rcases ih f hf with h | h
        · exact Or.inl h
        · exact Or.inr h

mutual

/-- Any `Subfs` node present after `replace_directory_with_subfs` either was
already in the tree or carries exactly the `flat` value passed in. -/
theorem replaceDWS_flats (uri : Name) (flat : Bool) :
    ∀ (parts : List Name) (d d' : FsDir), replaceDWS uri flat parts d = some d' →
    ∀ f ∈ subfsFlats d', f ∈ subfsFlats d ∨ f = some flat
  | [], d, d', h => by simp [replaceDWS] at h
  | [target], d, d', h => by
    simp only [replaceDWS, Option.some.injEq] at h
    subst h
    exact subfsFlats_map_replace uri target flat d
  | first :: p2 :: ps, d, d', h => by
    simp only [replaceDWS, Option.some.injEq] at h
    subst h
    exact replaceDWSEntries_flats uri flat first (p2 :: ps) d
termination_by parts d => (parts.length, sizeOf d)

/-- Entry-loop companion of `replaceDWS_flats`. -/
theorem replaceDWSEntries_flats (uri : Name) (flat : Bool) (first : Name)
    (restPath : List Name) :
    ∀ (d : FsDir), ∀ f ∈ subfsFlats (replaceDWSEntries uri flat first restPath d),
      f ∈ subfsFlats d ∨ f = some flat
  | [] => by simp [replaceDWSEntries, subfsFlats]
  | (n, .directory sub) :: rest => by
    intro f hf
    rw [replaceDWSEntries] at hf
    by_cases hn : n = first
    · rw [if_pos hn] at hf
      cases hrep : replaceDWS uri flat restPath sub with
      | some updated =>
        rw [hrep] at hf
        simp only [List.singleton_append, subfsFlats, List.mem_append] at hf
        rcases hf with hf | hf
        · rcases replaceDWS_flats uri flat restPath sub updated hrep f hf with h | h
          · exact Or.inl (by simp [subfsFlats, List.mem_append, h])
          · exact Or.inr h
        · rcases replaceDWSEntries_flats uri flat first restPath rest f hf with h | h
          · exact Or.inl (by simp [subfsFlats, List.mem_append, h])
          · exact Or.inr h
      | none =>
        rw [hrep] at hf
        simp only [List.nil_append] at hf
        rcases replaceDWSEntries_flats uri flat first restPath rest f hf with h | h
        · exact Or.inl (by simp [subfsFlats, List.mem_append, h])
        · exact Or.inr h
    · rw [if_neg hn] at hf
      simp only [List.singleton_append, subfsFlats, List.mem_append] at hf
      rcases hf with hf | hf
      · exact Or.inl (by simp [subfsFlats, List.mem_append, hf])
      · rcases replaceDWSEntries_flats uri flat first restPath rest f hf with h | h
        · exact Or.inl (by simp [subfsFlats, List.mem_append, h])
        · exact Or.inr h
  | (n, .file blob enc mt b64) :: rest => by
    intro f hf
    simp only [replaceDWSEntries] at hf
    have hsame : (if n = first then [(n, FsNode.file blob enc mt b64)]
        else [(n, FsNode.file blob enc mt b64)]) = [(n, FsNode.file blob enc mt b64)] := by
      split <;> rfl
    rw [hsame, List.singleton_append] at hf
    simp only [subfsFlats] at hf ⊢
    rcases replaceDWSEntries_flats uri flat first restPath rest f hf with h | h
    · exact Or.inl h
    · exact Or.inr h
  | (n, .subfs subject fl) :: rest => by
    intro f hf
    simp only [replaceDWSEntries] at hf
    have hsame : (if n = first then [(n, FsNode.subfs subject fl)]
        else [(n, FsNode.subfs subject fl)]) = [(n, FsNode.subfs subject fl)] := by
      split <;> rfl
    rw [hsame, List.singleton_append] at hf
    simp only [subfsFlats, List.mem_cons] at hf ⊢
    rcases hf with hf | hf
    · exact Or.inl (Or.inl hf)
    · rcases replaceDWSEntries_flats uri flat first restPath rest f hf with h | h
      · exact Or.inl (Or.inr h)
      · exact Or.inr h
  | (n, .unknown tag) :: rest => by
    intro f hf
    simp only [replaceDWSEntries] at hf
    have hsame : (if n = first then [(n, FsNode.unknown tag)]
        else [(n, FsNode.unknown tag)]) = [(n, FsNode.unknown tag)] := by
      split <;> rfl
    rw [hsame, List.singleton_append] at hf
    simp only [subfsFlats] at hf ⊢
    rcases replaceDWSEntries_flats uri flat first restPath rest f hf with h | h
    · exact Or.inl h
    · exact Or.inr h
termination_by d => (restPath.length, sizeOf d)

end

/-- Every `Subfs` node of a tree committed by the split loop either was in
the input tree already or carries `flat = some false` — the loop only ever
calls `replace_directory_with_subfs` with `flat == false`. -/
theorem splitLoop_flats (sizeJson : FsDir → Nat) (mkUri : Nat → Name) :
    ∀ (fuel : Nat) (working : FsDir) (count : Nat) (uris : List (Name × Name))
      (attempts : Nat) (d : FsDir) (c : Nat) (us : List (Name × Name)) (a : Nat),
      fuel = MAX_SPLIT_ATTEMPTS - attempts →
      splitLoop sizeJson mkUri working count uris attempts = .committed d c us a →
      ∀ f ∈ subfsFlats d, f ∈ subfsFlats working ∨ f = some false := by
  intro fuel
  induction fuel with
  | zero =>
    intro working count uris attempts d c us a hfuel hrun
    have ha : MAX_SPLIT_ATTEMPTS ≤ attempts := by omega
    rw [splitLoop, if_neg (by omega)] at hrun
    rw [splitFinish, if_pos ha] at hrun
    exact absurd hrun (by simp)
  | succ f ih =>
    intro working count uris attempts d c us a hfuel hrun
    have hlt : attempts < MAX_SPLIT_ATTEMPTS := by omega
    rw [splitLoop] at hrun
    by_cases hcond : MAX_MANIFEST_SIZE < sizeJson working ∨ TARGET_FILE_COUNT < count
    · rw [if_pos ⟨hcond, hlt⟩] at hrun
      cases hfld : findLargeDirectories sizeJson working [] with
      | nil =>
        rw [hfld] at hrun
        simp only at hrun
        rw [splitFinish] at hrun
        split at hrun
        · exact absurd hrun (by simp)
        · obtain ⟨hd, hc, hus, ha⟩ := SplitResult.committed.inj hrun
          subst hd
          intro f hf
          exact Or.inl hf
      | cons largest others =>
        rw [hfld] at hrun
        simp only at hrun
        obtain ⟨working', hw⟩ := Option.isSome_iff_exists.mp
          (replaceDWS_isSome (mkUri (attempts + 1)) false (splitOnSlash largest.path)
            (splitOnSlash_ne_nil largest.path) working)
        rw [hw] at hrun
        simp only at hrun
        have hsub : ∀ f ∈ subfsFlats working', f ∈ subfsFlats working ∨ f = some false :=
          replaceDWS_flats (mkUri (attempts + 1)) false (splitOnSlash largest.path)
            working working' hw
        split at hrun
        · rw [splitFinish] at hrun
          split at hrun
          · exact absurd hrun (by simp)
          · obtain ⟨hd, hc, hus, ha⟩ := SplitResult.committed.inj hrun
            subst hd
            exact hsub
        · intro f hf
          rcases ih working' (count - largest.fileCount)
              (uris ++ [(mkUri (attempts + 1), largest.path)]) (attempts + 1) d c us a
              (by omega) hrun f hf with h | h
          · exact hsub f h
          · exact Or.inr h
    · rw [if_neg (by tauto)] at hrun
      rw [splitFinish, if_neg (by omega)] at hrun
      obtain ⟨hd, hc, hus, ha⟩ := SplitResult.committed.inj hrun
      subst hd
      intro f hf
      exact Or.inl hf

/-- **C10.**  (i) Pull-side expansion treats a shard reference that carries
no explicit `flat` flag exactly as one with `flat = true`
(`flat.unwrap_or(true)`): the reference is merged in Flat mode, its entries
spliced into the parent.  (ii) The deploy-side sharding engine only ever
creates shard references with `flat` explicitly set to `some false`: every
`Subfs` node of a tree committed by the split loop either already occurred in
the loop's input tree or carries `flat = some false`.  Hence the Flat default
can only take effect on records written by a producer that omits the flag. -/
theorem subfs_flat_default_vs_deploy (subfsMap : SubfsMap) :
    (∀ (n subject cur : Name) (rest : FsDir),
      replaceSubfsWithContent subfsMap ((n, .subfs subject none) :: rest) cur =
        replaceSubfsWithContent subfsMap ((n, .subfs subject (some true)) :: rest) cur) ∧
    (∀ (sizeJson : FsDir → Nat) (mkUri : Nat → Name) (working : FsDir)
        (count : Nat) (uris : List (Name × Name)) (attempts : Nat)
        (d : FsDir) (c : Nat) (us : List (Name × Name)) (a : Nat),
      splitLoop sizeJson mkUri working count uris attempts = .committed d c us a →
      ∀ f ∈ subfsFlats d, f ∈ subfsFlats working ∨ f = some false) := by
  constructor
  · intro n subject cur rest
    simp [replaceSubfsWithContent]
  · intro sizeJson mkUri working count uris attempts d c us a hrun
    exact splitLoop_flats sizeJson mkUri (MAX_SPLIT_ATTEMPTS - attempts) working count
      uris attempts d c us a rfl hrun

/-- Witness for C10 on a concrete split run: a one-directory site is split
into a subfs reference, and the committed tree's only `Subfs` node carries
`flat = some false`. -/
theorem subfs_flat_default_vs_deploy_witness :
    splitLoop (fun d => if subfsFlats d = [] then 200000 else 0) (fun _ => ['u'])
        [(['a'], FsNode.directory [(['f'], FsNode.file ⟨['c']⟩ none none none)])]
        1 [] 0 =
      .committed [(['a'], FsNode.subfs ['u'] (some false))] 0 [(['u'], ['a'])] 1 ∧
    some false ∈ subfsFlats [(['a'], FsNode.subfs ['u'] (some false))] ∧
    (some false ∈ subfsFlats
        [(['a'], FsNode.directory [(['f'], FsNode.file ⟨['c']⟩ none none none)])] ∨
      (some false : Option Bool) = some false) := by
  have hrun : splitLoop (fun d => if subfsFlats d = [] then 200000 else 0) (fun _ => ['u'])
      [(['a'], FsNode.directory [(['f'], FsNode.file ⟨['c']⟩ none none none)])]
      1 [] 0 =
      .committed [(['a'], FsNode.subfs ['u'] (some false))] 0 [(['u'], ['a'])] 1 := by
    rw [splitLoop, if_pos (by
      refine ⟨Or.inl ?_, by norm_num [MAX_SPLIT_ATTEMPTS]⟩
      norm_num [MAX_MANIFEST_SIZE, subfsFlats])]
    simp [findLargeDirectories, findLargeDirectoriesGo, sortBySizeDesc, insertBySize,
      joinPath, countFilesInDirectory, subfsFlats, splitOnSlash, replaceDWS,
      splitFinish, MAX_MANIFEST_SIZE, TARGET_FILE_COUNT, MAX_SPLIT_ATTEMPTS]
  have hmem : some false ∈ subfsFlats [(['a'], FsNode.subfs ['u'] (some false))] := by
    simp [subfsFlats]
  exact ⟨hrun, hmem,
    (subfs_flat_default_vs_deploy []).2 _ _ _ _ _ _ _ _ _ _ hrun (some false) hmem⟩

/-! ## Shard expansion (`pull.rs::expand_subfs_in_pull`)

Network record fetching is abstracted as `fetch : Name → Option SubDir`
mapping a shard record's AT-URI to its root (`none` models any fetch or
parse failure, which the code drops with a warning).  The loop additionally
returns the list of URIs it attempted to fetch, in order (`trace`), so that
statements about repeated fetches can be made; the code's observable
behaviour is otherwise mirrored exactly, including the filter that compares
a discovered reference's *URI* against the *mount-path* keys of the fetched
map. -/

/-- `subfs_utils.rs::extract_subfs_uris`: all `(subject URI, mount path)`
pairs of the `Subfs` nodes of an `fs` tree, in traversal order. -/
def extractSubfsUris : FsDir → Name → List (Name × Name)
  | [], _ => []
  | (n, .subfs subject _) :: rest, cur =>
    (subject, joinPath cur n) :: extractSubfsUris rest cur
  | (n, .directory sub) :: rest, cur =>
    extractSubfsUris sub (joinPath cur n) ++ extractSubfsUris rest cur
  | (_, .file _ _ _ _) :: rest, cur => extractSubfsUris rest cur
  | (_, .unknown _) :: rest, cur => extractSubfsUris rest cur
termination_by d => sizeOf d
decreasing_by all_goals simp_wf <;> omega

/-- `pull.rs::extract_subfs_from_subfs_dir`: the same collection over a
`subfs` tree (nested references inside a fetched shard). -/
def extractSubfsFromSubfsDir : SubDir → Name → List (Name × Name)
  | [], _ => []
  | (n, .subfs subject) :: rest, cur =>
    (subject, joinPath cur n) :: extractSubfsFromSubfsDir rest cur
  | (n, .directory sub) :: rest, cur =>
    extractSubfsFromSubfsDir sub (joinPath cur n) ++ extractSubfsFromSubfsDir rest cur
  | (_, .file _ _ _ _) :: rest, cur => extractSubfsFromSubfsDir rest cur
  | (_, .unknown _) :: rest, cur => extractSubfsFromSubfsDir rest cur
termination_by d => sizeOf d
decreasing_by all_goals simp_wf <;> omega

/-- `HashMap::insert` for the fetched-shard map (overwrite). -/
def smInsert (k : Name) (v : SubDir) (m : SubfsMap) : SubfsMap :=
  (k, v) :: m.filter (fun e => !decide (e.1 = k))

/-- `pull.rs` expansion loop constant: `MAX_ITERATIONS = 10`. -/
def MAX_ITERATIONS : Nat := 10

/-- One round of the expansion loop: fetch every pending `(uri, path)` pair;
each success is inserted into the fetched map under its *mount path* and its
root is scanned for nested shard references (paths extended from the mount
path); failures are dropped.  Returns the updated map and the discovered
references. -/
def expandRound (fetch : Name → Option SubDir) (toFetch : List (Name × Name))
    (m : SubfsMap) : SubfsMap × List (Name × Name) :=
  toFetch.foldl
    (fun acc up =>
      match fetch up.1 with
      | some root =>
        (smInsert up.2 root acc.1, acc.2 ++ extractSubfsFromSubfsDir root up.2)
      | none => acc)
    (m, [])

/-- The `while` loop of `expand_subfs_in_pull` (lines 429-507).  The filter
that builds the next round's pending set keeps a discovered `(uri, path)`
pair unless the fetched map has a *key* (a mount path) equal to its *URI* —
the comparison spelled in the code
(`!all_subfs_map.iter().any(|(k, _)| k == uri)`). -/
def expandLoop (fetch : Name → Option SubDir) (toFetch : List (Name × Name))
    (m : SubfsMap) (iteration : Nat) (trace : List Name) :
    SubfsMap × Nat × List Name :=
  if toFetch ≠ [] ∧ iteration < MAX_ITERATIONS then
    let iteration' := iteration + 1
    let round := expandRound fetch toFetch m
    let toFetch' := round.2.filter (fun p => !(round.1.any (fun e => decide (e.1 = p.1))))
    expandLoop fetch toFetch' round.1 iteration' (trace ++ toFetch.map Prod.fst)
  else (m, iteration, trace)
termination_by MAX_ITERATIONS - iteration
decreasing_by
  simp_wf
  omega

/-- Outcome of `expand_subfs_in_pull`, with the fetch trace. -/
inductive ExpandResult where
  | ok (dir : FsDir) (trace : List Name)
  | maxIterations (trace : List Name)

/-- `pull.rs::expand_subfs_in_pull`: collect the tree's shard references; if
there are none, return the tree unchanged; otherwise run the fetch loop and
fail if the iteration counter reached `MAX_ITERATIONS` (even when the last
round yielded nothing new), else rewrite the tree with the fetched map. -/
def expandSubfsInPull (fetch : Name → Option SubDir) (dir : FsDir) : ExpandResult :=
  let toFetch := extractSubfsUris dir []
  if toFetch = [] then .ok dir []
  else
    match expandLoop fetch toFetch [] 0 [] with
    | (m, iter, trace) =>
      if MAX_ITERATIONS ≤ iter then .maxIterations trace
      else .ok (replaceSubfsWithContent m dir []) trace

/-- Every executed round increments the iteration counter by one and fetches
at least one address, so the final iteration count is bounded by
`MAX_ITERATIONS` and the trace grows by at least one entry per round. -/
theorem expandLoop_trace_growth (fetch : Name → Option SubDir) :
    ∀ (fuel : Nat) (toFetch : List (Name × Name)) (m : SubfsMap) (iteration : Nat)
      (trace : List Name) (m' : SubfsMap) (iter' : Nat) (trace' : List Name),
      iteration ≤ MAX_ITERATIONS → fuel = MAX_ITERATIONS - iteration →
      expandLoop fetch toFetch m iteration trace = (m', iter', trace') →
      iter' ≤ MAX_ITERATIONS ∧
        trace.length + (iter' - iteration) ≤ trace'.length := by
  intro fuel
  induction fuel with
  | zero =>
    intro toFetch m iteration trace m' iter' trace' hle hfuel hrun
    have : iteration = MAX_ITERATIONS := by omega
    rw [expandLoop, if_neg (by omega)] at hrun
    injection hrun with hm hrest
    injection hrest with hi ht
    subst hi ht
    omega
  | succ f ih =>
    intro toFetch m iteration trace m' iter' trace' hle hfuel hrun
    rw [expandLoop] at hrun
    by_cases hne : toFetch ≠ [] ∧ iteration < MAX_ITERATIONS
    · rw [if_pos hne] at hrun
      have hrec := ih _ _ (iteration + 1) _ m' iter' trace' (by omega) (by omega) hrun
      have hlen : 1 ≤ toFetch.length := by
        cases toFetch with
        | nil => exact absurd rfl hne.1
        | cons a l => simp
      have hmap : (toFetch.map Prod.fst).length = toFetch.length := List.length_map _ _
      have := hrec.2
      rw [List.length_append, hmap] at this
      exact ⟨hrec.1, by omega⟩
    · rw [if_neg hne] at hrun
      injection hrun with hm hrest
      injection hrest with hi ht
      subst hi ht
      omega

/-- **C3 counterexample.**  A site whose single shard record contains a
reference back to its own address: the address `"u"` is fetched in round 1,
rediscovered inside the fetched shard, *not* filtered out (the filter
compares the URI `"u"` against the mount-path keys `"a"`, `"a/q"`, … of the
fetched map, never against fetched URIs), and so is fetched again in every
round — the trace shows the same address fetched ten times — until the round
cap makes the pull fail.  This falsifies "a ShardRef address found inside a
fetched shard is never fetched twice". -/
theorem expand_refetches_fetched_address :
    expandSubfsInPull
        (fun u => if u = ['u'] then some [(['q'], SubNode.subfs ['u'])] else none)
        [(['a'], FsNode.subfs ['u'] none)] =
      .maxIterations [['u'], ['u'], ['u'], ['u'], ['u'], ['u'], ['u'], ['u'], ['u'], ['u']] ∧
    2 ≤ ([['u'], ['u'], ['u'], ['u'], ['u'], ['u'], ['u'], ['u'], ['u'], ['u']].count
      (['u'] : Name)) := by
  constructor
  · simp [expandSubfsInPull, extractSubfsUris, expandLoop, expandRound,
      extractSubfsFromSubfsDir, smInsert, joinPath, MAX_ITERATIONS]
  · decide

/-- **C3 (amended).**  Each round's pending set is exactly the set of shard
references discovered inside that round's successfully fetched shards,
filtered by comparing the reference's URI against the *mount-path keys* of
the fetched map (a comparison that never relates two URIs, so an address
reachable again in a later round is fetched again); a round with an empty
pending set stops the loop, and the expansion succeeds exactly when the loop
stops with the iteration counter below the ten-round cap — reaching the cap
is fatal even if the last round discovered nothing new, and a failed
expansion performed at least ten fetches (one or more per round for ten
rounds). -/
theorem expand_rounds_and_cap (fetch : Name → Option SubDir) (dir : FsDir) :
    (∀ (toFetch : List (Name × Name)) (m : SubfsMap) (iteration : Nat)
        (trace : List Name), toFetch ≠ [] → iteration < MAX_ITERATIONS →
      expandLoop fetch toFetch m iteration trace =
        expandLoop fetch
          ((expandRound fetch toFetch m).2.filter
            (fun p => !((expandRound fetch toFetch m).1.any (fun e => decide (e.1 = p.1)))))
          (expandRound fetch toFetch m).1 (iteration + 1)
          (trace ++ toFetch.map Prod.fst)) ∧
    (∀ (m : SubfsMap) (iteration : Nat) (trace : List Name),
      expandLoop fetch [] m iteration trace = (m, iteration, trace)) ∧
    (extractSubfsUris dir [] = [] → expandSubfsInPull fetch dir = .ok dir []) ∧
    (∀ (m : SubfsMap) (iter : Nat) (trace : List Name),
      extractSubfsUris dir [] ≠ [] →
      expandLoop fetch (extractSubfsUris dir []) [] 0 [] = (m, iter, trace) →
      (iter < MAX_ITERATIONS →
        expandSubfsInPull fetch dir = .ok (replaceSubfsWithContent m dir []) trace) ∧
      (MAX_ITERATIONS ≤ iter → expandSubfsInPull fetch dir = .maxIterations trace)) ∧
    (∀ trace, expandSubfsInPull fetch dir = .maxIterations trace →
      MAX_ITERATIONS ≤ trace.length) := by
  refine ⟨?_, ?_, ?_, ?_, ?_⟩
  · intro toFetch m iteration trace hne hlt
    rw [expandLoop, if_pos ⟨hne, hlt⟩]
  · intro m iteration trace
    rw [expandLoop, if_neg (by simp)]
  · intro hempty
    rw [expandSubfsInPull]
    simp only [hempty]
    rfl
  · intro m iter trace hne hrun
    constructor
    · intro hlt
      rw [expandSubfsInPull]
      simp only [if_neg hne, hrun]
      rw [if_neg (by omega)]
    · intro hge
      rw [expandSubfsInPull]
      simp only [if_neg hne, hrun]
      rw [if_pos hge]
  · intro trace hfail
    rw [expandSubfsInPull] at hfail
    by_cases hne : extractSubfsUris dir [] = []
    · simp only [if_pos hne] at hfail
      exact absurd hfail (by simp)
    · simp only [if_neg hne] at hfail
      rcases hrun : expandLoop fetch (extractSubfsUris dir []) [] 0 [] with ⟨m, iter, tr⟩
      rw [hrun] at hfail
      by_cases hge : MAX_ITERATIONS ≤ iter
      · rw [if_pos hge] at hfail
        have hgrow := expandLoop_trace_growth fetch (MAX_ITERATIONS - 0)
          (extractSubfsUris dir []) [] 0 [] m iter tr (by omega) rfl hrun
        have : tr = trace := by
          injection hfail
        subst this
        simp only [List.length_nil] at hgrow
        omega
      · rw [if_neg hge] at hfail
        exact absurd hfail (by simp)

/-- Witness for C3 (amended): on the self-referencing concrete site, the
failed expansion's trace indeed has at least ten entries. -/
theorem expand_rounds_and_cap_witness :
    (expandSubfsInPull
        (fun u => if u = ['u'] then some [(['q'], SubNode.subfs ['u'])] else none)
        [(['a'], FsNode.subfs ['u'] none)] =
      .maxIterations [['u'], ['u'], ['u'], ['u'], ['u'], ['u'], ['u'], ['u'], ['u'], ['u']]) ∧
    MAX_ITERATIONS ≤
      ([['u'], ['u'], ['u'], ['u'], ['u'], ['u'], ['u'], ['u'], ['u'], ['u']] :
        List Name).length := by
  have hfail : expandSubfsInPull
      (fun u => if u = ['u'] then some [(['q'], SubNode.subfs ['u'])] else none)
      [(['a'], FsNode.subfs ['u'] none)] =
      .maxIterations [['u'], ['u'], ['u'], ['u'], ['u'], ['u'], ['u'], ['u'], ['u'], ['u']] := by
    simp [expandSubfsInPull, extractSubfsUris, expandLoop, expandRound,
      extractSubfsFromSubfsDir, smInsert, joinPath, MAX_ITERATIONS]
  exact ⟨hfail,
    (expand_rounds_and_cap
      (fun u => if u = ['u'] then some [(['q'], SubNode.subfs ['u'])] else none)
      [(['a'], FsNode.subfs ['u'] none)]).2.2.2.2 _ hfail⟩

/-! ## Local filesystem model (for `pull.rs::pull_site` and
`pull.rs::download_directory`)

The filesystem is a finite association of paths (component lists) to file
contents; a directory exists implicitly when a file lives under it.
* `fs::write` — `fsWrite`, guarded by a write-success oracle `wOk` so that
  local I/O failures can be expressed;
* `fs::copy` — read the source then `fsWrite`;
* `fs::remove_dir_all` — `fsRemoveTree` (drops the subtree);
* `fs::rename` — `fsRename` (rebases the subtree);
* `Path::exists` / `read_dir` counting — `fsDirExists` /
  `countTopLevelFiles`. -/

/-- Filesystem paths, as component lists. -/
abbrev FsPath := List Name

/-- The filesystem: path → file bytes, association-list with first-match
lookup (our operations keep keys unique). -/
abbrev FS := List (FsPath × Bytes)

/-- Lookup a file. -/
def fsGet : FS → FsPath → Option Bytes
  | [], _ => none
  | (p, data) :: rest, q => if q = p then some data else fsGet rest q

/-- Write (create or overwrite) a file. -/
def fsWrite (fs : FS) (p : FsPath) (data : Bytes) : FS :=
  (p, data) :: fs.filter (fun e => !decide (e.1 = p))

/-- `remove_dir_all p`: drop `p` and everything below it. -/
def fsRemoveTree (fs : FS) (base : FsPath) : FS :=
  fs.filter (fun e => !(base.isPrefixOf e.1))

/-- `rename src dst`: rebase every file under `src` onto `dst`. -/
def fsRename (fs : FS) (src dst : FsPath) : FS :=
  fs.map (fun e => if src.isPrefixOf e.1 then (dst ++ e.1.drop src.length, e.2) else e)

/-- `Path::exists` for a file or directory: some file lives at the path or
below it. -/
def fsDirExists (fs : FS) (p : FsPath) : Bool :=
  fs.any (fun e => p.isPrefixOf e.1)

theorem fsGet_write (fs : FS) (p : FsPath) (data : Bytes) (q : FsPath) :
    fsGet (fsWrite fs p data) q = if q = p then some data else fsGet fs q := by
  unfold fsWrite
  by_cases h : q = p
  · simp [fsGet, h]
  · simp only [fsGet, if_neg h]
    induction fs with
    | nil => rfl
    | cons e rest ih =>
      by_cases he : e.1 = p
      · rw [List.filter_cons_of_neg (by simp [he])]
        rw [ih]
        obtain ⟨k, v⟩ := e
        simp only at he
        subst he
        simp [fsGet, h]
      · rw [List.filter_cons_of_pos (by simp [he])]
        obtain ⟨k, v⟩ := e
        by_cases hq : q = k
        · simp [fsGet, hq]
        · simp [fsGet, hq, ih]

theorem fsGet_removeTree (fs : FS) (base : FsPath) (q : FsPath) :
    fsGet (fsRemoveTree fs base) q =
      if base.isPrefixOf q then none else fsGet fs q := by
  unfold fsRemoveTree
  induction fs with
  | nil => simp [fsGet]
  | cons e rest ih =>
    obtain ⟨k, v⟩ := e
    by_cases hk : base.isPrefixOf k
    · rw [List.filter_cons_of_neg (by simp [hk])]
      rw [ih]
      by_cases hq : base.isPrefixOf q
      · simp [hq]
      · have : q ≠ k := fun h => hq (h ▸ hk)
        simp [hq, fsGet, this]
    · rw [List.filter_cons_of_pos (by simp [hk])]
      by_cases hq : q = k
      · subst hq
        simp [fsGet, hk]
      · simp [fsGet, hq, ih]

/-! ## `pull.rs::download_directory`

Per directory, the code first partitions the entries into copy tasks (file
unchanged since the previous pull and still on disk), download tasks
(everything else), and subdirectory tasks; it then runs all copies, then all
downloads (results collected, then written, aborting at the first error —
`result?`), and finally recurses into the subdirectories in entry order.
`dl` abstracts `download_and_decompress_blob` (`none` = network or decoding
failure); `wOk` tells whether a local write succeeds at a path.  Download
results are processed in task order (the Rust stream completes them in
nondeterministic order; the claims proved below do not depend on the order,
since all writes land under the staging directory). -/

/-- Lookup in the previous metadata's `path → contentId` map. -/
def cmFind : List (Name × Name) → Name → Option Name
  | [], _ => none
  | (k, v) :: rest, key => if key = k then some v else cmFind rest key

/-- The `should_copy` decision for one file (`pull.rs` lines 288-310): copy
from the previous snapshot when the new blob map and the previous metadata
agree on the content id and the previously materialized file still exists;
returns the source path to copy from. -/
def copySrcFor (newBlobMap : BlobMap) (existingCids : List (Name × Name))
    (existingOutputDir : FsPath) (fs : FS) (currentPath : Name) : Option FsPath :=
  match bmFind newBlobMap currentPath with
  | some (_, newCid) =>
    match cmFind existingCids currentPath with
    | some existingCid =>
      if existingCid = newCid then
        let existingPath := existingOutputDir ++ splitOnSlash currentPath
        if (fsGet fs existingPath).isSome then some existingPath else none
      else none
    | none => none
  | none => none

/-- Task partition for one directory's files: `(source, destination)` copy
tasks and `(destination, download result)` download tasks, in entry order. -/
def collectTasks (dl : BlobRef → Bool → Bool → Option Bytes) (newBlobMap : BlobMap)
    (existingCids : List (Name × Name)) (existingOutputDir : FsPath) (fs : FS)
    (outputDir : FsPath) (pathPrefix : Name) :
    FsDir → List (FsPath × FsPath) × List (FsPath × Option Bytes)
  | [] => ([], [])
  | (n, .file blob enc _mt b64) :: rest =>
    let currentPath := joinPath pathPrefix n
    let outputPath := outputDir ++ [n]
    let acc := collectTasks dl newBlobMap existingCids existingOutputDir fs outputDir
      pathPrefix rest
    match copySrcFor newBlobMap existingCids existingOutputDir fs currentPath with
    | some src => ((src, outputPath) :: acc.1, acc.2)
    | none =>
      (acc.1,
       (outputPath,
        dl blob (b64.getD false) (decide (enc = some "gzip".toList))) :: acc.2)
  | (_, .directory _) :: rest =>
    collectTasks dl newBlobMap existingCids existingOutputDir fs outputDir pathPrefix rest
  | (_, .subfs _ _) :: rest =>
    collectTasks dl newBlobMap existingCids existingOutputDir fs outputDir pathPrefix rest
  | (_, .unknown _) :: rest =>
    collectTasks dl newBlobMap existingCids existingOutputDir fs outputDir pathPrefix rest

/-- Execute the copy tasks in order (`fs::copy`), bumping the reuse counter;
a missing source or refused write aborts, keeping the state reached. -/
def runCopies (wOk : FsPath → Bool) : List (FsPath × FsPath) → FS → Nat →
    FS × Nat × Bool
  | [], fs, r => (fs, r, true)
  | (src, dst) :: rest, fs, r =>
    match fsGet fs src with
    | none => (fs, r, false)
    | some data =>
      if wOk dst then runCopies wOk rest (fsWrite fs dst data) (r + 1)
      else (fs, r, false)

/-- Write the collected download results in order, bumping the download
counter; a failed download or refused write aborts, keeping the state
reached (later successful downloads are simply not written). -/
def runDownloadWrites (wOk : FsPath → Bool) : List (FsPath × Option Bytes) → FS → Nat →
    FS × Nat × Bool
  | [], fs, d => (fs, d, true)
  | (_, none) :: _, fs, d => (fs, d, false)
  | (p, some data) :: rest, fs, d =>
    if wOk p then runDownloadWrites wOk rest (fsWrite fs p data) (d + 1)
    else (fs, d, false)

mutual

/-- `pull.rs::download_directory`: copies, then downloads, then recursion
into subdirectories.  Returns the filesystem, the downloaded/reused
counters, and whether the whole directory succeeded. -/
def downloadDirectory (dl : BlobRef → Bool → Bool → Option Bytes) (wOk : FsPath → Bool)
    (newBlobMap : BlobMap) (existingCids : List (Name × Name))
    (existingOutputDir : FsPath) (dir : FsDir) (outputDir : FsPath)
    (pathPrefix : Name) (fs : FS) (downloaded reused : Nat) : FS × Nat × Nat × Bool :=
  let tasks := collectTasks dl newBlobMap existingCids existingOutputDir fs outputDir
    pathPrefix dir
  match runCopies wOk tasks.1 fs reused with
  | (fs1, r1, false) => (fs1, downloaded, r1, false)
  | (fs1, r1, true) =>
    match runDownloadWrites wOk tasks.2 fs1 downloaded with
    | (fs2, d2, false) => (fs2, d2, r1, false)
    | (fs2, d2, true) =>
      downloadSubdirs dl wOk newBlobMap existingCids existingOutputDir dir outputDir
        pathPrefix fs2 d2 r1
termination_by (sizeOf dir, 1)

/-- The final loop of `download_directory`: recurse into each subdirectory
entry in order (`create_dir_all` is a no-op in the file-map model), aborting
on the first failure. -/
def downloadSubdirs (dl : BlobRef → Bool → Bool → Option Bytes) (wOk : FsPath → Bool)
    (newBlobMap : BlobMap) (existingCids : List (Name × Name))
    (existingOutputDir : FsPath) (dir : FsDir) (outputDir : FsPath)
    (pathPrefix : Name) (fs : FS) (downloaded reused : Nat) : FS × Nat × Nat × Bool :=
  match dir with
  | [] => (fs, downloaded, reused, true)
  | (n, .directory sub) :: rest =>
    match downloadDirectory dl wOk newBlobMap existingCids existingOutputDir sub
        (outputDir ++ [n]) (joinPath pathPrefix n) fs downloaded reused with
    | (fs', d', r', true) =>
      downloadSubdirs dl wOk newBlobMap existingCids existingOutputDir rest outputDir
        pathPrefix fs' d' r'
    | (fs', d', r', false) => (fs', d', r', false)
  | _ :: rest =>
    downloadSubdirs dl wOk newBlobMap existingCids existingOutputDir rest outputDir
      pathPrefix fs downloaded reused
termination_by (sizeOf dir, 0)

end

/-! ## `pull.rs::pull_site` (from the temp-sweep to the swap)

The identity/endpoint resolution, record fetch, and shard expansion that
precede this fragment are modelled by their results: the expanded tree, the
fetched record's CID string, and the previously persisted `SiteMetadata`
(which `SiteMetadata::load` reads from `<output>/.wisp-metadata.json`).
`encodeMeta` abstracts `serde_json::to_string_pretty` for the metadata file
body. -/

/-- `metadata.rs::SiteMetadata` (the `last_sync` timestamp carries no
behaviour and is omitted). -/
structure SiteMetadata where
  recordCid : Name
  fileCids : List (Name × Name)

/-- `".wisp-metadata"` — the hidden-name prefix excluded from the on-disk
file count. -/
def wispMetaPrefix : Name := ".wisp-metadata".toList

/-- `".wisp-metadata.json"` — the metadata file name. -/
def wispMetaName : Name := ".wisp-metadata.json".toList

/-- `".tmp-{output_name}-"` — the staging-directory name prefix. -/
def tmpPrefixOf (outputName : Name) : Name :=
  ".tmp-".toList ++ outputName ++ "-".toList

/-- The leftover-staging sweep (`pull.rs` lines 99-106): remove every file
strictly inside a directory entry of `parent` whose name starts with the
temp prefix (`remove_dir_all` on a plain *file* of that name fails and is
ignored, so such a file survives — hence "strictly inside"). -/
def cleanupTemps (fs : FS) (parent : FsPath) (tmpPrefix : Name) : FS :=
  fs.filter fun e =>
    !(parent.isPrefixOf e.1 &&
      match e.1.drop parent.length with
      | n :: _ :: _ => tmpPrefix.isPrefixOf n
      | _ => false)

/-- The on-disk file count of the early-exit check (`pull.rs` lines
112-124): the number of direct children of the destination that are plain
files and whose name does not start with `".wisp-metadata"`.  Nested files
are *not* counted (`read_dir` is not recursive). -/
def countTopLevelFiles (fs : FS) (outputDir : FsPath) : Nat :=
  (((fs.map Prod.fst).dedup).filter fun p =>
    outputDir.isPrefixOf p &&
      match p.drop outputDir.length with
      | [n] => !(wispMetaPrefix.isPrefixOf n)
      | _ => false).length

/-- The early-exit decision (`pull.rs` lines 109-138): stored metadata
present, its record CID equal to the freshly fetched record's CID, the
destination existing, and the top-level file count positive and at least the
metadata map's size. -/
def earlyExitCheck (metadata : Option SiteMetadata) (recordCid : Name) (fs : FS)
    (outputDir : FsPath) : Bool :=
  match metadata with
  | some md =>
    md.recordCid = recordCid &&
      (fsDirExists fs outputDir &&
        (decide (0 < countTopLevelFiles fs outputDir) &&
          decide (md.fileCids.length ≤ countTopLevelFiles fs outputDir)))
  | none => false

/-- The current-working-directory swap branch (`pull.rs` lines 190-210):
move each top-level staged entry over the same-named destination entry
(removing the existing one first), then drop the staging directory. -/
def swapIntoCwd (fs : FS) (tempDir outputDir : FsPath) : FS :=
  let names := ((fs.filterMap fun e =>
    if tempDir.isPrefixOf e.1 then (e.1.drop tempDir.length).head? else none)).dedup
  let fs' := names.foldl
    (fun acc n =>
      fsRename (fsRemoveTree acc (outputDir ++ [n])) (tempDir ++ [n]) (outputDir ++ [n]))
    fs
  fsRemoveTree fs' tempDir

/-- Observable outcome of a pull. -/
inductive PullOutcome where
  /-- "Site is already up to date!" — the early exit -/
  | upToDate
  /-- successful stage and swap -/
  | pulled (downloaded reused : Nat)
  /-- a download, copy or write inside `download_directory` failed; the
  staging directory was removed -/
  | failedDownload (downloaded reused : Nat)
  /-- `metadata.save(&temp_dir)?` failed; the error propagates with *no*
  staging cleanup -/
  | failedMetadataSave (downloaded reused : Nat)
  deriving DecidableEq, Repr

/-- `pull.rs::pull_site` from the blob-map computation (line 88) to the swap
(line 237): sweep leftover staging directories, exit early if the record CID
and the on-disk file count check pass, otherwise stage everything into a
fresh temp directory, write the metadata file, and swap — over the previous
destination via remove + rename, or entry-by-entry when pulling into the
current working directory. -/
def pullApply (dl : BlobRef → Bool → Bool → Option Bytes) (wOk : FsPath → Bool)
    (encodeMeta : Name → List (Name × Name) → Bytes) (expandedRoot : FsDir)
    (recordCid : Name) (metadata : Option SiteMetadata) (parent : FsPath)
    (outputName ts : Name) (isCwd : Bool) (fs0 : FS) : FS × PullOutcome :=
  let outputDir := parent ++ [outputName]
  let tmpPrefix := tmpPrefixOf outputName
  let newBlobMap := extractBlobMap expandedRoot
  let existingFileCids := (metadata.map SiteMetadata.fileCids).getD []
  let newFileCids := newBlobMap.map fun e => (e.1, e.2.2)
  let fs1 := cleanupTemps fs0 parent tmpPrefix
  if earlyExitCheck metadata recordCid fs1 outputDir then (fs1, .upToDate)
  else
    let tempDir := parent ++ [tmpPrefix ++ ts]
    match downloadDirectory dl wOk newBlobMap existingFileCids outputDir expandedRoot
        tempDir [] fs1 0 0 with
    | (fs2, d, r, false) => (fsRemoveTree fs2 tempDir, .failedDownload d r)
    | (fs2, d, r, true) =>
      let metaPath := tempDir ++ [wispMetaName]
      if wOk metaPath then
        let fs3 := fsWrite fs2 metaPath (encodeMeta recordCid newFileCids)
        if isCwd then (swapIntoCwd fs3 tempDir outputDir, .pulled d r)
        else
          let fs4 := if fsDirExists fs3 outputDir then fsRemoveTree fs3 outputDir else fs3
          (fsRename fs4 tempDir outputDir, .pulled d r)
      else (fs2, .failedMetadataSave d r)

/-! ### Localization lemmas: what each pull phase can touch -/

theorem fsGet_filter (fs : FS) (pred : FsPath × Bytes → Bool) (q : FsPath)
    (h : ∀ data, pred (q, data) = true) :
    fsGet (fs.filter pred) q = fsGet fs q := by
  induction fs with
  | nil => rfl
  | cons e rest ih =>
    obtain ⟨k, v⟩ := e
    by_cases hq : q = k
    · subst hq
      rw [List.filter_cons_of_pos (h v)]
      simp [fsGet]
    · by_cases hp : pred (k, v) = true
      · rw [List.filter_cons_of_pos hp]
        simp [fsGet, hq, ih]
      · rw [List.filter_cons_of_neg (by simpa using hp)]
        simp [fsGet, hq, ih]

/-- The leftover-temp sweep does not touch any path whose first component
under `parent` does not carry the temp prefix. -/
theorem cleanupTemps_preserve (fs : FS) (parent : FsPath) (tmpPrefix n0 : Name)
    (tail : List Name) (h : tmpPrefix.isPrefixOf n0 = false) :
    fsGet (cleanupTemps fs parent tmpPrefix) (parent ++ n0 :: tail) =
      fsGet fs (parent ++ n0 :: tail) := by
  apply fsGet_filter
  intro data
  simp only [Bool.not_eq_true']
  rw [List.drop_left]
  cases tail with
  | nil => simp
  | cons t ts => simp [h]

theorem tmpPrefixOf_length (o : Name) : (tmpPrefixOf o).length = o.length + 6 := by
  simp [tmpPrefixOf]

theorem tmpPrefixOf_starts_not (o : Name) : (tmpPrefixOf o).isPrefixOf o = false := by
  cases h : (tmpPrefixOf o).isPrefixOf o with
  | false => rfl
  | true =>
    have := (List.isPrefixOf_iff_prefix.mp h).length_le
    rw [tmpPrefixOf_length] at this
    omega

theorem tmpName_ne_output (o ts : Name) : tmpPrefixOf o ++ ts ≠ o := by
  intro h
  have := congrArg List.length h
  rw [List.length_append, tmpPrefixOf_length] at this
  omega

theorem runCopies_preserve (wOk : FsPath → Bool) (tasks : List (FsPath × FsPath))
    (fs : FS) (r : Nat) (q : FsPath) (h : ∀ t ∈ tasks, t.2 ≠ q) :
    fsGet (runCopies wOk tasks fs r).1 q = fsGet fs q := by
  induction tasks generalizing fs r with
  | nil => rfl
  | cons t rest ih =>
    obtain ⟨src, dst⟩ := t
    have hdst : dst ≠ q := h (src, dst) (List.mem_cons_self _ _)
    have hrest : ∀ t ∈ rest, t.2 ≠ q := fun t ht => h t (List.mem_cons_of_mem _ ht)
    rw [runCopies]
    cases fsGet fs src with
    | none => rfl
    | some data =>
      by_cases hw : wOk dst = true
      · simp only [hw, if_true]
        rw [ih _ _ hrest, fsGet_write]
        rw [if_neg (fun hqd => hdst hqd.symm)]
      · simp [hw]

theorem runDownloadWrites_preserve (wOk : FsPath → Bool)
    (tasks : List (FsPath × Option Bytes)) (fs : FS) (d : Nat) (q : FsPath)
    (h : ∀ t ∈ tasks, t.1 ≠ q) :
    fsGet (runDownloadWrites wOk tasks fs d).1 q = fsGet fs q := by
  induction tasks generalizing fs d with
  | nil => rfl
  | cons t rest ih =>
    obtain ⟨p, result⟩ := t
    have hp : p ≠ q := h (p, result) (List.mem_cons_self _ _)
    have hrest : ∀ t ∈ rest, t.1 ≠ q := fun t ht => h t (List.mem_cons_of_mem _ ht)
    cases result with
    | none => rfl
    | some data =>
      rw [runDownloadWrites]
      by_cases hw : wOk p = true
      · simp only [hw, if_true]
        rw [ih _ _ hrest, fsGet_write]
        rw [if_neg (fun hqp => hp hqp.symm)]
      · simp [hw]

/-- Every copy destination and every download destination produced by the
task partition is a direct child of the directory's output path. -/
theorem collectTasks_dests (dl : BlobRef → Bool → Bool → Option Bytes)
    (newBlobMap : BlobMap) (existingCids : List (Name × Name))
    (existingOutputDir : FsPath) (fs : FS) (outputDir : FsPath) (pathPrefix : Name) :
    ∀ dir : FsDir,
      (∀ t ∈ (collectTasks dl newBlobMap existingCids existingOutputDir fs outputDir
          pathPrefix dir).1, ∃ n, t.2 = outputDir ++ [n]) ∧
      (∀ t ∈ (collectTasks dl newBlobMap existingCids existingOutputDir fs outputDir
          pathPrefix dir).2, ∃ n, t.1 = outputDir ++ [n])
  | [] => by simp [collectTasks]
  | (n, .file blob enc mt b64) :: rest => by
    have ihrest := collectTasks_dests dl newBlobMap existingCids existingOutputDir fs
      outputDir pathPrefix rest
    rw [collectTasks]
    cases hsrc : copySrcFor newBlobMap existingCids existingOutputDir fs
        (joinPath pathPrefix n) with
    | some src =>
      dsimp only
      constructor
      · intro t ht
        simp only [List.mem_cons] at ht
        rcases ht with ht | ht
        · exact ⟨n, by rw [ht]⟩
        · exact ihrest.1 t ht
      · exact ihrest.2
    | none =>
      dsimp only
      constructor
      · exact ihrest.1
      · intro t ht
        simp only [List.mem_cons] at ht
        rcases ht with ht | ht
        · exact ⟨n, by rw [ht]⟩
        · exact ihrest.2 t ht
  | (n, .directory sub) :: rest => by
    rw [collectTasks]
    exact collectTasks_dests dl newBlobMap existingCids existingOutputDir fs outputDir
      pathPrefix rest
  | (n, .subfs subject flat) :: rest => by
    rw [collectTasks]
    exact collectTasks_dests dl newBlobMap existingCids existingOutputDir fs outputDir
      pathPrefix rest
  | (n, .unknown tag) :: rest => by
    rw [collectTasks]
    exact collectTasks_dests dl newBlobMap existingCids existingOutputDir fs outputDir
      pathPrefix rest

/-- A path strictly below `base`. -/
def properUnder (base q : FsPath) : Prop := base <+: q ∧ base.length < q.length

theorem properUnder_child (base : FsPath) (n : Name) (q : FsPath)
    (h : ¬ properUnder base q) : ¬ properUnder (base ++ [n]) q := by
  intro ⟨hpre, hlen⟩
  exact h ⟨(List.prefix_append base [n]).trans hpre, by
    simp only [List.length_append, List.length_cons, List.length_nil] at hlen
    omega⟩

theorem properUnder_of_child_eq (base : FsPath) (n : Name) (q : FsPath)
    (h : ¬ properUnder base q) : base ++ [n] ≠ q := by
  intro heq
  exact h ⟨heq ▸ List.prefix_append base [n], by
    rw [← heq]
    simp⟩

mutual

/-- `download_directory` writes only strictly below its output directory:
any path not strictly below it keeps its content. -/
theorem downloadDirectory_preserve (dl : BlobRef → Bool → Bool → Option Bytes)
    (wOk : FsPath → Bool) (nbm : BlobMap) (ecids : List (Name × Name))
    (eodir : FsPath) (dir : FsDir) (outputDir : FsPath) (pathPrefix : Name)
    (fs : FS) (d r : Nat) (q : FsPath) (hq : ¬ properUnder outputDir q) :
    fsGet (downloadDirectory dl wOk nbm ecids eodir dir outputDir pathPrefix fs d r).1 q =
      fsGet fs q := by
  rw [downloadDirectory]
  have hdests := collectTasks_dests dl nbm ecids eodir fs outputDir pathPrefix dir
  rcases hc : runCopies wOk
      (collectTasks dl nbm ecids eodir fs outputDir pathPrefix dir).1 fs r with
    ⟨fs1, r1, ok1⟩
  have hfs1 : fsGet fs1 q = fsGet fs q := by
    have hpr := runCopies_preserve wOk
      (collectTasks dl nbm ecids eodir fs outputDir pathPrefix dir).1 fs r q
      (fun t ht => by
        obtain ⟨n, hn⟩ := hdests.1 t ht
        rw [hn]
        exact properUnder_of_child_eq outputDir n q hq)
    rw [hc] at hpr
    exact hpr
  cases ok1 with
  | false => exact hfs1
  | true =>
    dsimp only
    rcases hw : runDownloadWrites wOk
        (collectTasks dl nbm ecids eodir fs outputDir pathPrefix dir).2 fs1 d with
      ⟨fs2, d2, ok2⟩
    have hfs2 : fsGet fs2 q = fsGet fs1 q := by
      have hpr := runDownloadWrites_preserve wOk
        (collectTasks dl nbm ecids eodir fs outputDir pathPrefix dir).2 fs1 d q
        (fun t ht => by
          obtain ⟨n, hn⟩ := hdests.2 t ht
          rw [hn]
          exact properUnder_of_child_eq outputDir n q hq)
      rw [hw] at hpr
      exact hpr
    cases ok2 with
    | false => exact hfs2.trans hfs1
    | true =>
      dsimp only
      rw [downloadSubdirs_preserve dl wOk nbm ecids eodir dir outputDir pathPrefix
        fs2 d2 r1 q hq]
      exact hfs2.trans hfs1
termination_by (sizeOf dir, 1)

/-- Companion of `downloadDirectory_preserve` for the subdirectory loop. -/
theorem downloadSubdirs_preserve (dl : BlobRef → Bool → Bool → Option Bytes)
    (wOk : FsPath → Bool) (nbm : BlobMap) (ecids : List (Name × Name))
    (eodir : FsPath) (dir : FsDir) (outputDir : FsPath) (pathPrefix : Name)
    (fs : FS) (d r : Nat) (q : FsPath) (hq : ¬ properUnder outputDir q) :
    fsGet (downloadSubdirs dl wOk nbm ecids eodir dir outputDir pathPrefix fs d r).1 q =
      fsGet fs q := by
  match dir with
  | [] => rw [downloadSubdirs]
  | (n, .directory sub) :: rest =>
    rw [downloadSubdirs]
    rcases hd : downloadDirectory dl wOk nbm ecids eodir sub (outputDir ++ [n])
        (joinPath pathPrefix n) fs d r with ⟨fs', d', r', ok⟩
    have hfs' : fsGet fs' q = fsGet fs q := by
      have hpr := downloadDirectory_preserve dl wOk nbm ecids eodir sub
        (outputDir ++ [n]) (joinPath pathPrefix n) fs d r q
        (properUnder_child outputDir n q hq)
      rw [hd] at hpr
      exact hpr
    cases ok with
    | false => exact hfs'
    | true =>
      dsimp only
      rw [downloadSubdirs_preserve dl wOk nbm ecids eodir rest outputDir pathPrefix
        fs' d' r' q hq]
      exact hfs'
  | (n, .file blob enc mt b64) :: rest =>
    simp only [downloadSubdirs]
    exact downloadSubdirs_preserve dl wOk nbm ecids eodir rest outputDir pathPrefix
      fs d r q hq
  | (n, .subfs subject flat) :: rest =>
    simp only [downloadSubdirs]
    exact downloadSubdirs_preserve dl wOk nbm ecids eodir rest outputDir pathPrefix
      fs d r q hq
  | (n, .unknown tag) :: rest =>
    simp only [downloadSubdirs]
    exact downloadSubdirs_preserve dl wOk nbm ecids eodir rest outputDir pathPrefix
      fs d r q hq
termination_by (sizeOf dir, 0)

end

theorem snoc_prefix_cons (p : FsPath) (a b : Name) (t : List Name)
    (h : (p ++ [a]) <+: (p ++ b :: t)) : a = b := by
  have h' : [a] <+: (b :: t) := (List.prefix_append_right_inj p).mp h
  obtain ⟨t', ht⟩ := h'
  injection ht

/-- The destination subtree is never strictly below the staging directory. -/
theorem dest_not_under_temp (parent : FsPath) (outputName ts : Name)
    (tail : List Name) :
    ¬ properUnder (parent ++ [tmpPrefixOf outputName ++ ts])
      (parent ++ outputName :: tail) := by
  intro ⟨hpre, _⟩
  exact tmpName_ne_output outputName ts (snoc_prefix_cons parent _ _ tail hpre)

theorem dest_not_under_temp_bool (parent : FsPath) (outputName ts : Name)
    (tail : List Name) :
    (parent ++ [tmpPrefixOf outputName ++ ts]).isPrefixOf
      (parent ++ outputName :: tail) = false := by
  cases h : (parent ++ [tmpPrefixOf outputName ++ ts]).isPrefixOf
      (parent ++ outputName :: tail) with
  | false => rfl
  | true =>
    exact absurd (tmpName_ne_output outputName ts
      (snoc_prefix_cons parent _ _ tail (List.isPrefixOf_iff_prefix.mp h))) (by simp)

/-- **C5 (amended).**  If any download, copy, or file write inside the
recursive download phase fails, the previous destination directory is left
byte-for-byte unchanged and the staging directory is removed, so no staging
file remains.  If, after a fully successful download phase, writing the
metadata file into the staging directory fails (still before the swap), the
destination is likewise untouched — but the error propagates *without*
removing the staging directory (it is only swept by the next pull's startup
cleanup). -/
theorem pull_failure_preserves_destination (dl : BlobRef → Bool → Bool → Option Bytes)
    (wOk : FsPath → Bool) (encodeMeta : Name → List (Name × Name) → Bytes)
    (expandedRoot : FsDir) (recordCid : Name) (metadata : Option SiteMetadata)
    (parent : FsPath) (outputName ts : Name) (isCwd : Bool) (fs0 : FS) :
    (∀ fs' d r, pullApply dl wOk encodeMeta expandedRoot recordCid metadata parent
        outputName ts isCwd fs0 = (fs', .failedDownload d r) →
      (∀ tail, fsGet fs' (parent ++ outputName :: tail) =
        fsGet fs0 (parent ++ outputName :: tail)) ∧
      (∀ q, (parent ++ [tmpPrefixOf outputName ++ ts]).isPrefixOf q = true →
        fsGet fs' q = none)) ∧
    (∀ fs' d r, pullApply dl wOk encodeMeta expandedRoot recordCid metadata parent
        outputName ts isCwd fs0 = (fs', .failedMetadataSave d r) →
      ∀ tail, fsGet fs' (parent ++ outputName :: tail) =
        fsGet fs0 (parent ++ outputName :: tail)) := by
  have hclean : ∀ tail, fsGet (cleanupTemps fs0 parent (tmpPrefixOf outputName))
      (parent ++ outputName :: tail) = fsGet fs0 (parent ++ outputName :: tail) :=
    fun tail => cleanupTemps_preserve fs0 parent (tmpPrefixOf outputName) outputName
      tail (tmpPrefixOf_starts_not outputName)
  simp only [pullApply]
  by_cases hEarly : earlyExitCheck metadata recordCid
      (cleanupTemps fs0 parent (tmpPrefixOf outputName))
      (parent ++ [outputName]) = true
  · rw [if_pos hEarly]
    constructor
    · intro fs' d r habs
      injection habs with _ habs
      exact absurd habs (by simp)
    · intro fs' d r habs
      injection habs with _ habs
      exact absurd habs (by simp)
  · rw [if_neg hEarly]
    rcases hdl : downloadDirectory dl wOk (extractBlobMap expandedRoot)
        ((metadata.map SiteMetadata.fileCids).getD []) (parent ++ [outputName])
        expandedRoot (parent ++ [tmpPrefixOf outputName ++ ts]) []
        (cleanupTemps fs0 parent (tmpPrefixOf outputName)) 0 0 with ⟨fs2, d0, r0, ok⟩
    have hdown : ∀ tail, fsGet fs2 (parent ++ outputName :: tail) =
        fsGet (cleanupTemps fs0 parent (tmpPrefixOf outputName))
          (parent ++ outputName :: tail) := by
      intro tail
      have hpr := downloadDirectory_preserve dl wOk (extractBlobMap expandedRoot)
        ((metadata.map SiteMetadata.fileCids).getD []) (parent ++ [outputName])
        expandedRoot (parent ++ [tmpPrefixOf outputName ++ ts]) []
        (cleanupTemps fs0 parent (tmpPrefixOf outputName)) 0 0
        (parent ++ outputName :: tail) (dest_not_under_temp parent outputName ts tail)
      rw [hdl] at hpr
      exact hpr
    cases ok with
    | false =>
      constructor
      · intro fs' d r heq
        injection heq with hfs _
        subst hfs
        constructor
        · intro tail
          rw [fsGet_removeTree, dest_not_under_temp_bool parent outputName ts tail]
          simp only [Bool.false_eq_true, if_false]
          rw [hdown tail, hclean tail]
        · intro q hq
          rw [fsGet_removeTree, hq]
          simp
      · intro fs' d r heq
        injection heq with _ habs
        exact absurd habs (by simp)
    | true =>
      dsimp only
      by_cases hmw : wOk (parent ++ [tmpPrefixOf outputName ++ ts] ++ [wispMetaName]) = true
      · rw [if_pos hmw]
        by_cases hcwd : isCwd = true
        · rw [if_pos hcwd]
          constructor
          · intro fs' d r habs
            injection habs with _ habs
            exact absurd habs (by simp)
          · intro fs' d r habs
            injection habs with _ habs
            exact absurd habs (by simp)
        · rw [if_neg hcwd]
          constructor
          · intro fs' d r habs
            injection habs with _ habs
            exact absurd habs (by simp)
          · intro fs' d r habs
            injection habs with _ habs
            exact absurd habs (by simp)
      · rw [if_neg hmw]
        constructor
        · intro fs' d r habs
          injection habs with _ habs
          exact absurd habs (by simp)
        · intro fs' d r heq
          injection heq with hfs _
          subst hfs
          intro tail
          rw [hdown tail, hclean tail]

/-- **C5 counterexample.**  All ten-of-ten downloads succeed, but the write
of `.wisp-metadata.json` into the staging directory — a write during
materialization, before the swap — fails: the pull aborts with the previous
destination untouched, yet the staged file `.tmp-o-t/f` is still on disk
afterwards, contradicting "the staging directory is removed, so no staging
directory remains after the failed pull". -/
theorem pull_metadata_save_failure_leaves_staging :
    pullApply (fun _ _ _ => some [1])
        (fun p => decide (p ≠ [tmpPrefixOf ['o'] ++ ['t'], wispMetaName]))
        (fun _ _ => []) [(['f'], FsNode.file ⟨['c']⟩ none none none)] ['r'] none
        [] ['o'] ['t'] false [] =
      ([([tmpPrefixOf ['o'] ++ ['t'], ['f']], [1])], .failedMetadataSave 1 0) ∧
    fsGet [([tmpPrefixOf ['o'] ++ ['t'], ['f']], [1])]
        [tmpPrefixOf ['o'] ++ ['t'], ['f']] = some [1] := by
  constructor
  · simp [pullApply, earlyExitCheck, cleanupTemps, extractBlobMap, extractGo, bmInsert,
      bmFind, normalizePath, afterFirstSlash, joinPath, downloadDirectory, collectTasks,
      copySrcFor, cmFind, runCopies, runDownloadWrites, downloadSubdirs, fsWrite,
      fsGet, tmpPrefixOf, wispMetaName, splitOnSlash, fsRemoveTree, bmExtend]
  · simp [fsGet]

/-- Witness for C5 (amended) at a pull whose single download fails: the
destination is untouched and nothing remains under the staging directory. -/
theorem pull_failure_preserves_destination_witness :
    pullApply (fun _ _ _ => none) (fun _ => true) (fun _ _ => [])
        [(['f'], FsNode.file ⟨['c']⟩ none none none)] ['r'] none [] ['o'] ['t']
        false [] = (([] : FS), .failedDownload 0 0) ∧
    (([] : FsPath) ++ [tmpPrefixOf ['o'] ++ ['t']]).isPrefixOf
      ([] ++ [tmpPrefixOf ['o'] ++ ['t']]) = true ∧
    fsGet ([] : FS) (([] : FsPath) ++ ['o'] :: []) =
      fsGet ([] : FS) (([] : FsPath) ++ ['o'] :: []) ∧
    fsGet ([] : FS) ([] ++ [tmpPrefixOf ['o'] ++ ['t']]) = none := by
  have hrun : pullApply (fun _ _ _ => none) (fun _ => true) (fun _ _ => [])
      [(['f'], FsNode.file ⟨['c']⟩ none none none)] ['r'] none [] ['o'] ['t']
      false [] = (([] : FS), .failedDownload 0 0) := by
    simp [pullApply, earlyExitCheck, cleanupTemps, extractBlobMap, extractGo, bmInsert,
      bmFind, normalizePath, afterFirstSlash, joinPath, downloadDirectory, collectTasks,
      copySrcFor, cmFind, runCopies, runDownloadWrites, downloadSubdirs, fsWrite,
      fsGet, tmpPrefixOf, wispMetaName, splitOnSlash, fsRemoveTree, bmExtend]
  have hpre : (([] : FsPath) ++ [tmpPrefixOf ['o'] ++ ['t']]).isPrefixOf
      ([] ++ [tmpPrefixOf ['o'] ++ ['t']]) = true := by
    simp [List.isPrefixOf_iff_prefix]
  have happ := (pull_failure_preserves_destination (fun _ _ _ => none) (fun _ => true)
    (fun _ _ => []) [(['f'], FsNode.file ⟨['c']⟩ none none none)] ['r'] none [] ['o']
    ['t'] false []).1 [] 0 0 hrun
  exact ⟨hrun, hpre, happ.1 [], happ.2 _ hpre⟩

/-! ## Claim C8: the pull early exit -/

/-- **C8 counterexample.**  Stored metadata with matching record CID but a
one-entry path map, while the destination holds *two* top-level files: the
on-disk file count (2) does not match the metadata's per-path map (size 1),
yet the pull exits early ("Site is already up to date!") because the code
only requires the count to be positive and *at least* the map's size —
contradicting "exits early … exactly when … the on-disk file count matches
the metadata's per-path map". -/
theorem pull_early_exit_count_mismatch :
    pullApply (fun _ _ _ => none) (fun _ => true) (fun _ _ => []) [] ['r']
        (some ⟨['r'], [(['x'], ['c'])]⟩) [] ['o'] ['t'] false
        [([['o'], ['x']], [1]), ([['o'], ['y']], [2])] =
      ([([['o'], ['x']], [1]), ([['o'], ['y']], [2])], .upToDate) ∧
    countTopLevelFiles [([['o'], ['x']], [1]), ([['o'], ['y']], [2])]
        ([] ++ [['o']]) = 2 ∧
    ([(['x'], ['c'])] : List (Name × Name)).length = 1 := by
  refine ⟨?_, ?_, rfl⟩
  · simp only [pullApply, earlyExitCheck, cleanupTemps, countTopLevelFiles,
      fsDirExists, tmpPrefixOf, wispMetaPrefix]
    decide
  · decide

/-- **C8 (amended).**  A pull exits early — performing no downloads and
leaving the destination unchanged — exactly when the stored metadata exists,
its record CID equals the freshly fetched record's CID, the destination
exists, and the count of its top-level non-metadata plain files is positive
and *at least* the metadata map's size (the count is neither recursive nor
an equality test); when the check fails (including when no metadata is
stored), the pull proceeds to stage and swap (or fails trying). -/
theorem pull_early_exit_characterization (dl : BlobRef → Bool → Bool → Option Bytes)
    (wOk : FsPath → Bool) (encodeMeta : Name → List (Name × Name) → Bytes)
    (expandedRoot : FsDir) (recordCid : Name) (metadata : Option SiteMetadata)
    (parent : FsPath) (outputName ts : Name) (isCwd : Bool) (fs0 : FS) :
    ((pullApply dl wOk encodeMeta expandedRoot recordCid metadata parent outputName ts
        isCwd fs0).2 = .upToDate ↔
      earlyExitCheck metadata recordCid
        (cleanupTemps fs0 parent (tmpPrefixOf outputName)) (parent ++ [outputName]) =
        true) ∧
    (earlyExitCheck metadata recordCid
        (cleanupTemps fs0 parent (tmpPrefixOf outputName)) (parent ++ [outputName]) =
        true →
      pullApply dl wOk encodeMeta expandedRoot recordCid metadata parent outputName ts
          isCwd fs0 =
        (cleanupTemps fs0 parent (tmpPrefixOf outputName), .upToDate) ∧
      ∀ tail, fsGet (cleanupTemps fs0 parent (tmpPrefixOf outputName))
          (parent ++ outputName :: tail) = fsGet fs0 (parent ++ outputName :: tail)) ∧
    (∀ md, metadata = some md →
      (earlyExitCheck metadata recordCid
          (cleanupTemps fs0 parent (tmpPrefixOf outputName)) (parent ++ [outputName]) =
          true ↔
        (md.recordCid = recordCid ∧
          fsDirExists (cleanupTemps fs0 parent (tmpPrefixOf outputName))
            (parent ++ [outputName]) = true ∧
          0 < countTopLevelFiles (cleanupTemps fs0 parent (tmpPrefixOf outputName))
            (parent ++ [outputName]) ∧
          md.fileCids.length ≤
            countTopLevelFiles (cleanupTemps fs0 parent (tmpPrefixOf outputName))
              (parent ++ [outputName])))) ∧
    (metadata = none →
      earlyExitCheck metadata recordCid
        (cleanupTemps fs0 parent (tmpPrefixOf outputName)) (parent ++ [outputName]) =
        false) := by
  refine ⟨?_, ?_, ?_, ?_⟩
  · constructor
    · intro hup
      by_contra hE
      rw [Bool.not_eq_true] at hE
      rw [pullApply] at hup
      simp only [hE, Bool.false_eq_true, if_false] at hup
      rcases hdl : downloadDirectory dl wOk (extractBlobMap expandedRoot)
          ((Option.map SiteMetadata.fileCids metadata).getD []) (parent ++ [outputName])
          expandedRoot (parent ++ [tmpPrefixOf outputName ++ ts]) []
          (cleanupTemps fs0 parent (tmpPrefixOf outputName)) 0 0 with ⟨fs2, d0, r0, ok⟩
      rw [hdl] at hup
      cases ok with
      | false => exact absurd hup (by simp)
      | true =>
        dsimp only at hup
        by_cases hmw : wOk (parent ++ [tmpPrefixOf outputName ++ ts] ++ [wispMetaName]) =
            true
        · rw [if_pos hmw] at hup
          by_cases hcwd : isCwd = true
          · rw [if_pos hcwd] at hup
            exact absurd hup (by simp)
          · rw [if_neg hcwd] at hup
            exact absurd hup (by simp)
        · rw [if_neg hmw] at hup
          exact absurd hup (by simp)
    · intro hE
      rw [pullApply]
      simp only [hE, if_true]
  · intro hE
    constructor
    · rw [pullApply]
      simp only [hE, if_true]
    · intro tail
      exact cleanupTemps_preserve fs0 parent (tmpPrefixOf outputName) outputName tail
        (tmpPrefixOf_starts_not outputName)
  · intro md hmd
    subst hmd
    simp [earlyExitCheck, and_assoc]
  · intro hmd
    subst hmd
    rfl

/-- Witness for C8 (amended) at the concrete over-complete destination. -/
theorem pull_early_exit_characterization_witness :
    earlyExitCheck (some ⟨['r'], [(['x'], ['c'])]⟩) ['r']
        (cleanupTemps [([['o'], ['x']], [1]), ([['o'], ['y']], [2])] []
          (tmpPrefixOf ['o'])) ([] ++ [['o']]) = true ∧
    pullApply (fun _ _ _ => none) (fun _ => true) (fun _ _ => []) [] ['r']
        (some ⟨['r'], [(['x'], ['c'])]⟩) [] ['o'] ['t'] false
        [([['o'], ['x']], [1]), ([['o'], ['y']], [2])] =
      (cleanupTemps [([['o'], ['x']], [1]), ([['o'], ['y']], [2])] []
        (tmpPrefixOf ['o']), .upToDate) ∧
    fsGet (cleanupTemps [([['o'], ['x']], [1]), ([['o'], ['y']], [2])] []
        (tmpPrefixOf ['o'])) ([] ++ ['o'] :: [['x']]) =
      fsGet [([['o'], ['x']], [1]), ([['o'], ['y']], [2])] ([] ++ ['o'] :: [['x']]) := by
  have hE : earlyExitCheck (some ⟨['r'], [(['x'], ['c'])]⟩) ['r']
      (cleanupTemps [([['o'], ['x']], [1]), ([['o'], ['y']], [2])] []
        (tmpPrefixOf ['o'])) ([] ++ [['o']]) = true := by
    decide
  have happ := (pull_early_exit_characterization (fun _ _ _ => none) (fun _ => true)
    (fun _ _ => []) [] ['r'] (some ⟨['r'], [(['x'], ['c'])]⟩) [] ['o'] ['t'] false
    [([['o'], ['x']], [1]), ([['o'], ['y']], [2])]).2.1 hE
  exact ⟨hE, happ.1, happ.2 [['x']]⟩

end Wisp
